import Mathlib

/-
  Verification of the blog build script (`scripts/build_blog.js`).

  The script is a batch pipeline: scan a drafts directory, derive a slug /
  title / excerpt for each draft, copy each draft into the output directory,
  write a JSON manifest, and patch a marker-delimited region of the site's
  root `index.html`.

  The embedding below models strings as `List Char` (JS strings; every
  character manipulated by the script is a BMP scalar, so UTF-16 code units
  and scalar values coincide on all relevant inputs).  Each definition is a
  direct translation of the correspondingly named function of the source
  file; regular-expression operations are translated to explicit scans with
  the same leftmost-match semantics.
-/

set_option maxRecDepth 100000

/-- The apostrophe character (U+0027), kept as a named constant. -/
def quoteC : Char := Char.ofNat 39

/-- The horizontal-ellipsis character appended by `shortenExcerpt`. -/
def hellip : Char := Char.ofNat 8230

/-- The JS whitespace class (also the set trimmed by JS trim), given by code
point: space, tab, LF, CR, VT, FF, NBSP, Ogham space, the U+2000-U+200A
range, LS, PS, NNBSP, MMSP, ideographic space, BOM. -/
def isJsWs (c : Char) : Bool :=
  c.toNat == 32 || c.toNat == 9 || c.toNat == 10 || c.toNat == 13 ||
  c.toNat == 11 || c.toNat == 12 || c.toNat == 160 || c.toNat == 5760 ||
  (8192 <= c.toNat && c.toNat <= 8202) || c.toNat == 8232 || c.toNat == 8233 ||
  c.toNat == 8239 || c.toNat == 8287 || c.toNat == 12288 || c.toNat == 65279

/-- Worker for `collapseWs`: the flag says whether the previous character
was whitespace (so the current run already emitted its space). -/
def collapseWsGo : Bool → List Char → List Char
  | _, [] => []
  | prevWs, c :: rest =>
    if isJsWs c then
      if prevWs then collapseWsGo true rest
      else ' ' :: collapseWsGo true rest
    else c :: collapseWsGo false rest

/-- `text.replace(/\s+/g, ' ')`: collapse every whitespace run to one space. -/
def collapseWs (l : List Char) : List Char :=
  collapseWsGo false l

/-- Remove the trailing run of characters satisfying `p` (a JS
`replace(/X+$/, Y)` with an anchored character class). -/
def dropTrailing (p : Char → Bool) (l : List Char) : List Char :=
  l.rdropWhile p

/-- `String.prototype.trim()`. -/
def jsTrim (l : List Char) : List Char :=
  dropTrailing isJsWs (l.dropWhile isJsWs)

/-- `cleanupWhitespace` (build_blog.js line 109): collapse `\s+` to a single
space, then trim. -/
def cleanupWhitespace (l : List Char) : List Char :=
  jsTrim (collapseWs l)

/-- `truncated.replace(/\s+\S*$/, '')` (build_blog.js line 139): remove the
last whitespace run together with everything after it; if the text contains
no whitespace the regex does not match and the text is unchanged. -/
def trimLastWord (l : List Char) : List Char :=
  let r1 := l.reverse.dropWhile (fun c => !isJsWs c)
  if r1.isEmpty then l else (r1.dropWhile isJsWs).reverse

/-- The character class `[\s,;:]` stripped at build_blog.js line 140. -/
def isPunctStrip (c : Char) : Bool :=
  isJsWs c || c == ',' || c == ';' || c == ':'

/-- The character class `["'“”]` stripped at build_blog.js line 141
(double quote, apostrophe, U+201C, U+201D). -/
def isQuoteStrip (c : Char) : Bool :=
  c == '"' || c == quoteC || c.toNat == 8220 || c.toNat == 8221

/-- `shortenExcerpt(text, maxLength)` (build_blog.js lines 134-143). -/
def shortenExcerptAt (maxLength : Nat) (text : List Char) : List Char :=
  if text.length ≤ maxLength then text
  else
    let t1 := text.take (maxLength - 1)
    let t2 := trimLastWord t1
    let t3 := dropTrailing isPunctStrip t2
    let t4 := dropTrailing isQuoteStrip t3
    t4 ++ [hellip]

/-- `shortenExcerpt` at its default cap of 200. -/
def shortenExcerpt (text : List Char) : List Char :=
  shortenExcerptAt 200 text

/-- ASCII-case-insensitive character equality, as the regex `/i` flag acts
on the ASCII pattern characters used by the script. -/
def ciEqChar (a b : Char) : Bool :=
  a.toLower == b.toLower

/-- Case-insensitive test that `pat` is a prefix of the second list. -/
def ciStartsWith : List Char → List Char → Bool
  | [], _ => true
  | _ :: _, [] => false
  | p :: ps, c :: cs => ciEqChar p c && ciStartsWith ps cs

/-- Index of the first occurrence of `pat` in `l`: JS `indexOf`, as `none`
for `-1`. -/
def firstIndexOf (pat : List Char) : List Char → Option Nat
  | [] => if pat.isEmpty then some 0 else none
  | c :: rest =>
    if pat.isPrefixOf (c :: rest) then some 0
    else (firstIndexOf pat rest).map (· + 1)

/-- Case-insensitive version of `firstIndexOf`. -/
def ciFirstIndexOf (pat l : List Char) : Option Nat :=
  firstIndexOf (pat.map Char.toLower) (l.map Char.toLower)

/-- One attempt of the regex `<tag[^>]*>([\s\S]*?)</tag>` at the current
position: the case-insensitive opening token, the greedy `[^>]*` running to
the first `>`, then the lazy body ending at the first closing token. -/
def tagInnerHere (openTok closeTok l : List Char) : Option (List Char) :=
  if ciStartsWith openTok l then
    let rest := l.drop openTok.length
    match rest.findIdx? (fun c => c == '>') with
    | none => none
    | some g =>
      let body := rest.drop (g + 1)
      match ciFirstIndexOf closeTok body with
      | none => none
      | some j => some (body.take j)
  else none

/-- Leftmost match of `<tag[^>]*>([\s\S]*?)</tag>`, returning the capture. -/
def findTagInner (openTok closeTok : List Char) : List Char → Option (List Char)
  | [] => none
  | c :: rest =>
    match tagInnerHere openTok closeTok (c :: rest) with
    | some i => some i
    | none => findTagInner openTok closeTok rest

/-- Worker for `stripHtml`; the fuel bounds the number of scan steps, and
every step consumes at least one character, so fuel equal to the input
length never runs out. -/
def stripHtmlGo : Nat → List Char → List Char
  | _, [] => []
  | 0, l => l
  | fuel + 1, c :: rest =>
    if c == '<' then
      match rest.findIdx? (fun d => d == '>') with
      | some g =>
        if 1 ≤ g then stripHtmlGo fuel (rest.drop (g + 1))
        else c :: stripHtmlGo fuel rest
      | none => c :: stripHtmlGo fuel rest
    else c :: stripHtmlGo fuel rest

/-- `stripHtml` (line 113): `text.replace(/<[^>]+>/g, '')`. -/
def stripHtml (l : List Char) : List Char :=
  stripHtmlGo l.length l

/-- Worker for `replaceAllCI`; every step consumes at least one character,
so fuel equal to the input length never runs out. -/
def replaceAllCIGo (p : Char) (ps rep : List Char) : Nat → List Char → List Char
  | _, [] => []
  | 0, l => l
  | fuel + 1, c :: rest =>
    if ciStartsWith (p :: ps) (c :: rest) then
      rep ++ replaceAllCIGo p ps rep fuel (rest.drop ps.length)
    else c :: replaceAllCIGo p ps rep fuel rest

/-- Global case-insensitive literal replacement: `replace(/pat/gi, rep)` for
the literal, nonempty pattern `p :: ps`. -/
def replaceAllCI (p : Char) (ps rep l : List Char) : List Char :=
  replaceAllCIGo p ps rep l.length l

/-- Worker for `replaceAll2CI`; fuel as in `replaceAllCIGo`. -/
def replaceAll2CIGo (p1 : Char) (ps1 : List Char) (p2 : Char) (ps2 rep : List Char) :
    Nat → List Char → List Char
  | _, [] => []
  | 0, l => l
  | fuel + 1, c :: rest =>
    if ciStartsWith (p1 :: ps1) (c :: rest) then
      rep ++ replaceAll2CIGo p1 ps1 p2 ps2 rep fuel (rest.drop ps1.length)
    else if ciStartsWith (p2 :: ps2) (c :: rest) then
      rep ++ replaceAll2CIGo p1 ps1 p2 ps2 rep fuel (rest.drop ps2.length)
    else c :: replaceAll2CIGo p1 ps1 p2 ps2 rep fuel rest

/-- Global case-insensitive replacement for a two-branch alternation
`replace(/pat1|pat2/gi, rep)`, both branches nonempty literals. -/
def replaceAll2CI (p1 : Char) (ps1 : List Char) (p2 : Char) (ps2 rep l : List Char) :
    List Char :=
  replaceAll2CIGo p1 ps1 p2 ps2 rep l.length l

/-- `replaceAllCI` with the pattern given whole. -/
def replaceAllCIStr (pat rep l : List Char) : List Char :=
  match pat with
  | [] => l
  | p :: ps => replaceAllCI p ps rep l

/-- `replaceAll2CI` with the patterns given whole. -/
def replaceAll2CIStr (pat1 pat2 rep l : List Char) : List Char :=
  match pat1, pat2 with
  | p1 :: ps1, p2 :: ps2 => replaceAll2CI p1 ps1 p2 ps2 rep l
  | _, _ => l

/-- `decodeEntities` (lines 117-132): the thirteen chained global
case-insensitive replacements, in source order. -/
def decodeEntities (t0 : List Char) : List Char :=
  let t := replaceAllCIStr "&nbsp;".toList " ".toList t0
  let t := replaceAllCIStr "&amp;".toList "&".toList t
  let t := replaceAllCIStr "&lt;".toList "<".toList t
  let t := replaceAllCIStr "&gt;".toList ">".toList t
  let t := replaceAllCIStr "&quot;".toList "\"".toList t
  let t := replaceAllCIStr "&#39;".toList [quoteC] t
  let t := replaceAll2CIStr "&rsquo;".toList "&#8217;".toList [Char.ofNat 8217] t
  let t := replaceAll2CIStr "&lsquo;".toList "&#8216;".toList [Char.ofNat 8216] t
  let t := replaceAll2CIStr "&ldquo;".toList "&#8220;".toList [Char.ofNat 8220] t
  let t := replaceAll2CIStr "&rdquo;".toList "&#8221;".toList [Char.ofNat 8221] t
  let t := replaceAll2CIStr "&ndash;".toList "&#8211;".toList [Char.ofNat 8211] t
  let t := replaceAll2CIStr "&mdash;".toList "&#8212;".toList [Char.ofNat 8212] t
  replaceAll2CIStr "&hellip;".toList "&#8230;".toList [hellip] t

/-- The JS word class `\w` = `[A-Za-z0-9_]`. -/
def isWordW (c : Char) : Bool :=
  c.isAlphanum || c == '_'

/-- Worker for `toTitleCase`: the flag says whether the previous character
was a word character (so the current character is not a word start). -/
def toTitleCaseGo : Bool → List Char → List Char
  | _, [] => []
  | prevW, c :: rest =>
    if isWordW c then
      (if prevW then c else c.toUpper) :: toTitleCaseGo true rest
    else c :: toTitleCaseGo false rest

/-- `toTitleCase` (lines 145-147): uppercase the first character of every
`\w+` word, keeping the rest of the word unchanged. -/
def toTitleCase (l : List Char) : List Char :=
  toTitleCaseGo false l

/-- One `replace(/c/g, rep)` with an exact single-character pattern. -/
def replaceChar (a : Char) (rep : List Char) (l : List Char) : List Char :=
  l.flatMap (fun c => if c == a then rep else [c])

/-- `escapeHtml` (lines 149-156): the five chained global replacements, in
source order. -/
def escapeHtml (t0 : List Char) : List Char :=
  let t := replaceChar '&' "&amp;".toList t0
  let t := replaceChar '<' "&lt;".toList t
  let t := replaceChar '>' "&gt;".toList t
  let t := replaceChar '"' "&quot;".toList t
  replaceChar quoteC "&#39;".toList t

/-- The character class `[a-z0-9]` of the slug normalization. -/
def isLowerAlnum (c : Char) : Bool :=
  ('a' ≤ c && c ≤ 'z') || ('0' ≤ c && c ≤ '9')

/-- Worker for `collapseNonAlnum`: the flag says whether we are inside a
run of non-alphanumerics whose hyphen was already emitted. -/
def collapseNonAlnumGo : Bool → List Char → List Char
  | _, [] => []
  | inRun, c :: rest =>
    if isLowerAlnum c then c :: collapseNonAlnumGo false rest
    else if inRun then collapseNonAlnumGo true rest
    else '-' :: collapseNonAlnumGo true rest

/-- `.replace(/[^a-z0-9]+/g, '-')` (line 61): collapse every run of
non-alphanumerics to one hyphen. -/
def collapseNonAlnum (l : List Char) : List Char :=
  collapseNonAlnumGo false l

/-- The `^-` half of line 62: remove one leading hyphen. -/
def dropLeadHyphen : List Char → List Char
  | '-' :: r => r
  | other => other

/-- The `-$` half of line 62: remove one trailing hyphen. -/
def dropTrailHyphen (l : List Char) : List Char :=
  (dropLeadHyphen l.reverse).reverse

/-- `.replace(/(^-|-$)/g, '')` (line 62): remove one leading and one
trailing hyphen. -/
def stripEdgeHyphens (l : List Char) : List Char :=
  dropTrailHyphen (dropLeadHyphen l)

/-- Worker for `squashHyphens`: the flag says whether we are inside a run
of hyphens whose hyphen was already emitted. -/
def squashHyphensGo : Bool → List Char → List Char
  | _, [] => []
  | inRun, c :: rest =>
    if c == '-' then
      if inRun then squashHyphensGo true rest
      else '-' :: squashHyphensGo true rest
    else c :: squashHyphensGo false rest

/-- `.replace(<hyphen>{2,} global, single hyphen)` (line 63): collapse
hyphen runs to one hyphen (a length-one run is unchanged either way). -/
def squashHyphens (l : List Char) : List Char :=
  squashHyphensGo false l

/-- `slugify` (lines 55-65).  The `normalize('NFKD')` call is not
representable (full Unicode normalization data); it is modeled as the
identity, which it is on ASCII input.  Every theorem below about `slugify`
holds for arbitrary argument strings, so it covers every possible output of
the normalization step.  The combining-mark strip `[̀-ͯ]` and
`toLowerCase` are modeled directly. -/
def slugNormalize (input : List Char) : List Char :=
  (input.filter (fun c => !(768 ≤ c.toNat && c.toNat ≤ 879))).map Char.toLower

/-- The chain of replacements at lines 60-63. -/
def slugCore (input : List Char) : List Char :=
  squashHyphens (stripEdgeHyphens (collapseNonAlnum (slugNormalize input)))

def slugify (input : List Char) : List Char :=
  if (slugCore input).isEmpty then "post".toList else slugCore input

/-- Lookup in the JS `Map` of slug counts (modeled as an association list). -/
def mapGet (m : List (List Char × Nat)) (k : List Char) : Option Nat :=
  match m with
  | [] => none
  | (k2, v) :: r => if k2 = k then some v else mapGet r k

/-- `Map.prototype.set`. -/
def mapSet (m : List (List Char × Nat)) (k : List Char) (v : Nat) :
    List (List Char × Nat) :=
  match m with
  | [] => [(k, v)]
  | (k2, v2) :: r => if k2 = k then (k, v) :: r else (k2, v2) :: mapSet r k v

/-- Decimal digit character. -/
def digitToChar (d : Nat) : Char :=
  Char.ofNat (48 + d % 10)

/-- Worker for `natStr`; fuel bounds the digit count and `n + 1` always
suffices since the value shrinks by a factor of ten each step. -/
def natStrGo : Nat → Nat → List Char
  | 0, _ => []
  | fuel + 1, n =>
    if n < 10 then [digitToChar n]
    else natStrGo fuel (n / 10) ++ [digitToChar (n % 10)]

/-- The decimal numeral of `n`, as produced by the template literal
interpolation of a JS number holding a small integer. -/
def natStr (n : Nat) : List Char :=
  natStrGo (n + 1) n

/-- `ensureUniqueSlug(slug, map)` (lines 67-75): the assigned slug together
with the updated collision-count map. -/
def ensureUniqueSlug (slug : List Char) (m : List (List Char × Nat)) :
    List Char × List (List Char × Nat) :=
  match mapGet m slug with
  | none => (slug, mapSet m slug 1)
  | some count => (slug ++ '-' :: natStr count, mapSet m slug (count + 1))

/-- `extractTitle` (lines 77-87). -/
def extractTitle (html : List Char) : List Char :=
  match findTagInner "<title".toList "</title>".toList html with
  | some inner => cleanupWhitespace (decodeEntities (stripHtml inner))
  | none =>
    match findTagInner "<h1".toList "</h1>".toList html with
    | some inner => cleanupWhitespace (decodeEntities (stripHtml inner))
    | none => []

/-- `extractFirstParagraph` (lines 101-107). -/
def extractFirstParagraph (html : List Char) : List Char :=
  match findTagInner "<p".toList "</p>".toList html with
  | some inner => cleanupWhitespace (decodeEntities (stripHtml inner))
  | none => []

/-- One attempt of `<meta[^>]*name=["']description["'][^>]*>` at the current
position; on success, the whole matched tag. -/
def metaDescHere (l : List Char) : Option (List Char) :=
  if ciStartsWith "<meta".toList l then
    let rest := l.drop 5
    match rest.findIdx? (fun c => c == '>') with
    | none => none
    | some g =>
      let seg := rest.take g
      if (ciFirstIndexOf ("name=\"description\"".toList) seg).isSome
          || (ciFirstIndexOf ("name=".toList ++ quoteC :: ("description".toList ++ [quoteC])) seg).isSome then
        some ("<meta".toList ++ (seg ++ ['>']))
      else none
  else none

/-- Leftmost match of the `<meta name="description">` pattern (line 90). -/
def findMetaDesc : List Char → Option (List Char)
  | [] => none
  | c :: rest =>
    match metaDescHere (c :: rest) with
    | some m => some m
    | none => findMetaDesc rest

/-- `match(/content=(["'])([\s\S]*?)\1/i)` (line 93) on the matched meta
tag: the lazily captured attribute value. -/
def contentAttr : List Char → Option (List Char)
  | [] => none
  | c :: rest =>
    if ciStartsWith "content=".toList (c :: rest) then
      match rest.drop 7 with
      | q :: r =>
        if q == '"' || q == quoteC then
          match r.findIdx? (fun d => d == q) with
          | some j => some (r.take j)
          | none => contentAttr rest
        else contentAttr rest
      | [] => contentAttr rest
    else contentAttr rest

/-- `extractDescription` (lines 89-99). -/
def extractDescription (html : List Char) : List Char :=
  match findMetaDesc html with
  | none => []
  | some m =>
    match contentAttr m with
    | some inner => cleanupWhitespace (decodeEntities inner)
    | none => []

/-- JS `a || b` on strings: the empty string is falsy. -/
def jsOr (a b : List Char) : List Char :=
  if a.isEmpty then b else a

/-- The title stored in a post (lines 31 and 39): extracted title with the
humanized slug as fallback, whitespace-cleaned. -/
def postTitle (html slug : List Char) : List Char :=
  cleanupWhitespace
    (jsOr (extractTitle html)
      (toTitleCase (slug.map (fun c => if c == '-' then ' ' else c))))

/-- The excerpt stored in a post (lines 32-35). -/
def postExcerpt (html : List Char) : List Char :=
  shortenExcerpt
    (cleanupWhitespace (jsOr (extractDescription html) (jsOr (extractFirstParagraph html) [])))

/-- `entry.name.toLowerCase().endsWith('.html')` (line 20). -/
def endsWithHtmlCI (name : List Char) : Bool :=
  ".html".toList.isSuffixOf (name.map Char.toLower)

/-- `entry.name.replace(/\.html$/i, '')` (line 25). -/
def baseNameOf (name : List Char) : List Char :=
  if endsWithHtmlCI name then name.take (name.length - 5) else name

/-- The record built for each post (lines 37-42). -/
structure Post where
  slug : List Char
  title : List Char
  excerpt : List Char
  href : List Char
deriving DecidableEq, Repr

/-- The body of the `for` loop of `main` (lines 18-43) for one draft that
passed the filters: the post pushed, the published file written, and the
updated slug map. -/
def processDraft (name html : List Char) (m : List (List Char × Nat)) :
    Post × (List Char × List Char) × List (List Char × Nat) :=
  let baseSlug := slugify (baseNameOf name)
  let sm := ensureUniqueSlug baseSlug m
  let post : Post :=
    { slug := sm.1
      title := postTitle html sm.1
      excerpt := postExcerpt html
      href := "blog/".toList ++ (sm.1 ++ ".html".toList) }
  (post, ("blog/".toList ++ (sm.1 ++ ".html".toList), html), sm.2)

/-- The `.html` filter of the scan loop (lines 19-20); drafts are pairs of
filename and raw content. -/
def draftFilter (drafts : List (List Char × List Char)) : List (List Char × List Char) :=
  drafts.filter (fun d => endsWithHtmlCI d.1)

/-- The whole scan loop: posts in scan order and published files in write
order, threading the slug map. -/
def processLoop (m : List (List Char × Nat)) :
    List (List Char × List Char) → List Post × List (List Char × List Char)
  | [] => ([], [])
  | (name, html) :: rest =>
    let r := processDraft name html m
    let t := processLoop r.2.2 rest
    (r.1 :: t.1, r.2.1 :: t.2)

/-- Modelled approximation of `a.title.localeCompare(b.title) <= 0`: the ICU
collation is modeled as code-point lexicographic comparison (the spec
assumes only a stable, deterministic comparator). -/
def lexLe : List Char → List Char → Bool
  | [], _ => true
  | _ :: _, [] => false
  | a :: as, b :: bs => if a == b then lexLe as bs else decide (a < b)

/-- The comparator of line 45. -/
def titleLe (a b : Post) : Bool :=
  lexLe a.title b.title

/-- Stable insertion of a post into a title-sorted list: the new element
goes after every strictly smaller title and before equal titles, which in
the fold below are exactly the scan-order-later elements. -/
def insertPost (p : Post) : List Post → List Post
  | [] => [p]
  | q :: rest => if titleLe p q then p :: q :: rest else q :: insertPost p rest

/-- Stable insertion sort by title. -/
def sortPosts : List Post → List Post
  | [] => []
  | p :: rest => insertPost p (sortPosts rest)

/-- The sorted post collection (line 45); `Array.prototype.sort` is a stable
sort, modeled as stable insertion sort, which yields the same sequence as
any stable sort under the same comparator. -/
def buildPosts (drafts : List (List Char × List Char)) : List Post :=
  sortPosts (processLoop [] (draftFilter drafts)).1

/-- The published files written by the loop, in write order (line 29). -/
def publishedOf (drafts : List (List Char × List Char)) : List (List Char × List Char) :=
  (processLoop [] (draftFilter drafts)).2

/-- Lowercase hexadecimal digit. -/
def hexDigitChar (d : Nat) : Char :=
  if d % 16 < 10 then Char.ofNat (48 + d % 16) else Char.ofNat (87 + d % 16)

/-- The escape of one character inside a JSON string, as emitted by
`JSON.stringify`. -/
def jsonEscapeChar (c : Char) : List Char :=
  if c == '"' then ['\\', '"']
  else if c == '\\' then ['\\', '\\']
  else if c == '\n' then ['\\', 'n']
  else if c == '\r' then ['\\', 'r']
  else if c == '\t' then ['\\', 't']
  else if c.toNat == 8 then ['\\', 'b']
  else if c.toNat == 12 then ['\\', 'f']
  else if c.toNat < 32 then
    ['\\', 'u', hexDigitChar (c.toNat / 4096), hexDigitChar (c.toNat / 256),
      hexDigitChar (c.toNat / 16), hexDigitChar c.toNat]
  else [c]

/-- A JSON string literal. -/
def jsonString (s : List Char) : List Char :=
  '"' :: (s.flatMap jsonEscapeChar ++ ['"'])

/-- One post as serialized by `JSON.stringify(posts, null, 2)` at array
nesting depth one. -/
def jsonPost (p : Post) : List Char :=
  "  \x7b\n    \"slug\": ".toList ++ (jsonString p.slug ++
  (",\n    \"title\": ".toList ++ (jsonString p.title ++
  (",\n    \"excerpt\": ".toList ++ (jsonString p.excerpt ++
  (",\n    \"href\": ".toList ++ (jsonString p.href ++ "\n  \x7d".toList)))))))

/-- Interpose a separator between serialized elements. -/
def joinSep (sep : List Char) : List (List Char) → List Char
  | [] => []
  | [x] => x
  | x :: rest => x ++ (sep ++ joinSep sep rest)

/-- `JSON.stringify(posts, null, 2)` for the posts array. -/
def jsonPosts : List Post → List Char
  | [] => "[]".toList
  | p :: rest =>
    "[\n".toList ++ (joinSep ",\n".toList ((p :: rest).map jsonPost) ++ "\n]".toList)

/-- The manifest content written to `blog/posts.json` (line 48). -/
def manifestOf (drafts : List (List Char × List Char)) : List Char :=
  jsonPosts (buildPosts drafts) ++ ['\n']

/-- The five pushed lines of one article block, followed by the blank
separator line pushed after it (lines 165-172). -/
def articleLines (indent : List Char) (p : Post) : List (List Char) :=
  [ indent ++ "  <article class=\"card shadow-lg overflow-hidden p-6 transition duration-300 transform hover:shadow-xl hover:-translate-y-1\">".toList,
    indent ++ ("    <h3 class=\"text-xl font-semibold mb-3\">".toList ++ (escapeHtml p.title ++ "</h3>".toList)),
    indent ++ ("    <p class=\"mb-4\">".toList ++ (escapeHtml p.excerpt ++ "</p>".toList)),
    indent ++ ("    <a href=\"".toList ++ (p.href ++ "\" class=\"font-medium\">Read More →</a>".toList)),
    indent ++ "  </article>".toList,
    [] ]

/-- The line list built by `generateBlogMarkup` (lines 158-178): header,
placeholder or article blocks (with the final blank line popped), footer. -/
def generateBlogLines (posts : List Post) (indent : List Char) : List (List Char) :=
  (indent ++ "<div class=\"grid md:grid-cols-3 gap-10\">".toList) ::
  ((if posts.isEmpty then
      [indent ++ "  <p class=\"text-gray-400\">No blog posts available yet. Check back soon!</p>".toList]
    else
      (posts.flatMap (articleLines indent)).dropLast)
  ++ [indent ++ "</div>".toList])

/-- `lines.join('\n')` (line 179). -/
def joinLines : List (List Char) → List Char
  | [] => []
  | [l] => l
  | l :: rest => l ++ '\n' :: joinLines rest

/-- `generateBlogMarkup(posts, indent)`. -/
def generateBlogMarkup (posts : List Post) (indent : List Char) : List Char :=
  joinLines (generateBlogLines posts indent)

/-- The start marker literal (line 183). -/
def startMarker : List Char := "<!-- BLOG:START -->".toList

/-- The end marker literal (line 184). -/
def endMarker : List Char := "<!-- BLOG:END -->".toList

/-- Index of the last occurrence of `c`: JS `lastIndexOf` on a prefix. -/
def lastIdxOfChar (c : Char) : List Char → Option Nat
  | [] => none
  | a :: rest =>
    match lastIdxOfChar c rest with
    | some j => some (j + 1)
    | none => if a == c then some 0 else none

/-- The indentation string computed at lines 194-196:
`lastIndexOf('\n', startIndex)`, the slice from there to the marker, its
whitespace characters, with the raw slice as fallback when it holds no
whitespace at all. -/
def indentOf (indexHtml : List Char) (startIndex : Nat) : List Char :=
  let startIndent :=
    match lastIdxOfChar '\n' (indexHtml.take (startIndex + 1)) with
    | none => []
    | some j => (indexHtml.take startIndex).drop (j + 1)
  jsOr (startIndent.filter isJsWs) startIndent

/-- `updateIndex` (lines 182-203) as a content transformation: the new index
content, or the thrown error when a marker is missing or the end marker does
not come after the start marker. -/
def updateIndexContent (indexHtml : List Char) (posts : List Post) :
    Except (List Char) (List Char) :=
  match firstIndexOf startMarker indexHtml, firstIndexOf endMarker indexHtml with
  | some s, some e =>
    if e ≤ s then Except.error "Blog markers not found in index.html".toList
    else
      let indent := indentOf indexHtml s
      let generated := generateBlogMarkup posts indent
      let before := indexHtml.take (s + startMarker.length)
      let after := indexHtml.drop (e + endMarker.length)
      Except.ok (before ++ '\n' :: (generated ++ '\n' :: (indent ++ (endMarker ++ after))))
  | _, _ => Except.error "Blog markers not found in index.html".toList

/-- Path of the manifest inside the output directory (line 47). -/
def manifestPath : List Char := "blog/posts.json".toList

/-- Path of the patched root document (line 10). -/
def indexPathName : List Char := "index.html".toList

/-- The pure content of one whole build (lines 14-50): published files in
loop order, the manifest content, and the result of patching the index. -/
def buildOutputs (drafts : List (List Char × List Char)) (indexHtml : List Char) :
    (List (List Char × List Char)) × List Char × Except (List Char) (List Char) :=
  (publishedOf drafts, manifestOf drafts, updateIndexContent indexHtml (buildPosts drafts))

/-- The write trace of one build in program order, with a flag telling
whether the build ended in the marker error: the loop writes each published
document (line 29), then the manifest (line 48), and only then is the index
read and - when the markers are intact - rewritten (line 50). -/
def buildWrites (drafts : List (List Char × List Char)) (indexHtml : List Char) :
    List (List Char × List Char) × Bool :=
  let pubs := publishedOf drafts
  let man := (manifestPath, manifestOf drafts)
  match updateIndexContent indexHtml (buildPosts drafts) with
  | Except.ok r => (pubs ++ ([man] ++ [(indexPathName, r)]), false)
  | Except.error _ => (pubs ++ [man], true)

/-- The slug sequence assigned by repeated `ensureUniqueSlug` calls over a
base-slug sequence, threading the map exactly as the loop does. -/
def slugsLoop (m : List (List Char × Nat)) : List (List Char) → List (List Char)
  | [] => []
  | b :: rest =>
    let r := ensureUniqueSlug b m
    r.1 :: slugsLoop r.2 rest

/-- The base slugs of a filename list after the scan filter (lines 20-26). -/
def baseSlugsOf (names : List (List Char)) : List (List Char) :=
  (names.filter endsWithHtmlCI).map (fun n => slugify (baseNameOf n))

/-- The final slugs the build assigns to a filename list, in scan order. -/
def slugsOfNames (names : List (List Char)) : List (List Char) :=
  slugsLoop [] (baseSlugsOf names)

/-- Modelled from the spec (§3, §8 of the design document): the slug
sequence as the spec words it - the first occurrence of each base slug stays
bare and the n-th later occurrence takes suffix `-n`, counted in first-seen
order over the already processed prefix `pre`. -/
def slugsSpec (pre : List (List Char)) : List (List Char) → List (List Char)
  | [] => []
  | b :: rest =>
    (if pre.count b = 0 then b else b ++ '-' :: natStr (pre.count b)) ::
    slugsSpec (pre ++ [b]) rest

/-! ### Generic helper lemmas -/

theorem rdropWhile_append_rtakeWhile (p : Char → Bool) (l : List Char) :
    l.rdropWhile p ++ l.rtakeWhile p = l := by
  unfold List.rdropWhile List.rtakeWhile
  rw [← List.reverse_append, List.takeWhile_append_dropWhile, List.reverse_reverse]

theorem mem_of_rdropWhile_eq {x : Char} {p : Char → Bool} {l r : List Char}
    (h : l.rdropWhile p = r) (hx : x ∈ r) : x ∈ l := by
  subst h
  exact ( List.rdropWhile_prefix p l).sublist.mem hx

theorem dropWhile_head_not (p : Char → Bool) (l : List Char) :
    ∀ c rest, l.dropWhile p = c :: rest → ¬ p c := by
  induction l with
  | nil => intro c rest h; simp at h
  | cons a t ih =>
    intro c rest h
    by_cases ha : p a
    · rw [List.dropWhile_cons_of_pos ha] at h; exact ih c rest h
    · rw [List.dropWhile_cons_of_neg ha] at h
      cases h; exact ha

theorem mem_dropWhile_of_not {x : Char} {p : Char → Bool} {l : List Char}
    (hx : x ∈ l) (hnp : ¬ p x) : x ∈ l.dropWhile p := by
  induction l with
  | nil => cases hx
  | cons a t ih =>
    by_cases ha : p a
    · rw [List.dropWhile_cons_of_pos ha]
      rcases List.mem_cons.1 hx with rfl | hm
      · exact absurd ha hnp
      · exact ih hm
    · rw [List.dropWhile_cons_of_neg ha]; exact hx

/-! ### C4: the index patch preserves everything outside the marker span -/

/-- C4: for every index content holding the start marker (first occurrence
at `s`) and the end marker (first occurrence at `e`) with `s < e`, the
patched content is the original prefix up to and including the start marker,
then some replacement span, then the original suffix starting right after
the end marker. -/
theorem updateIndex_frame (indexHtml : List Char) (posts : List Post) (s e : Nat)
    (hs : firstIndexOf startMarker indexHtml = some s)
    (he : firstIndexOf endMarker indexHtml = some e)
    (hlt : s < e) :
    ∃ mid, updateIndexContent indexHtml posts =
      Except.ok (indexHtml.take (s + startMarker.length) ++
        (mid ++ indexHtml.drop (e + endMarker.length))) := by
  refine ⟨'\n' :: (generateBlogMarkup posts (indentOf indexHtml s) ++
    '\n' :: (indentOf indexHtml s ++ endMarker)), ?_⟩
  unfold updateIndexContent
  rw [hs, he]
  have hne : ¬ e ≤ s := by omega
  simp [hne]

/-- Witness for C4 at a concrete document and a concrete post list. -/
theorem updateIndex_frame_witness :
    ∃ mid, updateIndexContent "<a>\n <!-- BLOG:START -->x<!-- BLOG:END -->\n</a>".toList [] =
      Except.ok ("<a>\n <!-- BLOG:START -->x<!-- BLOG:END -->\n</a>".toList.take (5 + startMarker.length) ++
        (mid ++ "<a>\n <!-- BLOG:START -->x<!-- BLOG:END -->\n</a>".toList.drop (25 + endMarker.length))) :=
  updateIndex_frame _ [] 5 25 (by decide) (by decide) (by decide)

/-! ### C8: the second build on unchanged drafts reproduces manifest and
published documents -/

/-- C8: published files and manifest are computed from the drafts alone, so
running the build a second time on the same drafts - with the index document
now holding whatever the first (successful) run wrote - yields byte-identical
published file contents and byte-identical manifest content. -/
theorem build_twice_same_outputs (drafts : List (List Char × List Char))
    (idx i1 : List Char) (p1 p2 : List (List Char × List Char)) (m1 m2 : List Char)
    (r2 : Except (List Char) (List Char))
    (h1 : buildOutputs drafts idx = (p1, m1, Except.ok i1))
    (h2 : buildOutputs drafts i1 = (p2, m2, r2)) :
    p1 = p2 ∧ m1 = m2 := by
  unfold buildOutputs at h1 h2
  simp only [Prod.mk.injEq] at h1 h2
  obtain ⟨e1, e2, -⟩ := h1
  obtain ⟨e4, e5, -⟩ := h2
  subst e1; subst e2; subst e4; subst e5
  exact ⟨rfl, rfl⟩

/-- Witness for C8: a one-draft build against a well-formed index document;
the second run consumes the patched index produced by the first. -/
theorem build_twice_same_outputs_witness :
    publishedOf [("a.html".toList, "<p>x</p>".toList)] =
      publishedOf [("a.html".toList, "<p>x</p>".toList)] ∧
    manifestOf [("a.html".toList, "<p>x</p>".toList)] =
      manifestOf [("a.html".toList, "<p>x</p>".toList)] :=
  build_twice_same_outputs [("a.html".toList, "<p>x</p>".toList)]
    "<!-- BLOG:START --><!-- BLOG:END -->".toList
    ((updateIndexContent "<!-- BLOG:START --><!-- BLOG:END -->".toList
      (buildPosts [("a.html".toList, "<p>x</p>".toList)])).toOption.getD [])
    (publishedOf [("a.html".toList, "<p>x</p>".toList)])
    (publishedOf [("a.html".toList, "<p>x</p>".toList)])
    (manifestOf [("a.html".toList, "<p>x</p>".toList)])
    (manifestOf [("a.html".toList, "<p>x</p>".toList)])
    (updateIndexContent ((updateIndexContent "<!-- BLOG:START --><!-- BLOG:END -->".toList
      (buildPosts [("a.html".toList, "<p>x</p>".toList)])).toOption.getD [])
      (buildPosts [("a.html".toList, "<p>x</p>".toList)]))
    (by rfl) rfl

/-! ### C2: behavior when the index markers are malformed -/

/-- Every published file written by the scan loop lives under the output
directory: its path starts with the output directory prefix. -/
theorem published_path_shape (ds : List (List Char × List Char)) :
    ∀ m, ∀ w ∈ (processLoop m ds).2, ∃ t, w.1 = "blog/".toList ++ t := by
  induction ds with
  | nil => intro m w hw; simp [processLoop] at hw
  | cons d rest ih =>
    intro m w hw
    obtain ⟨name, html⟩ := d
    simp only [processLoop] at hw
    rcases List.mem_cons.1 hw with rfl | hm
    · exact ⟨_, rfl⟩
    · exact ih _ w hm

/-- C2 (amended): when the index markers are missing or inverted the build
fails, but only after the published documents and the manifest have been
written; the index document itself receives no write.  In the write trace
the failure flag is up, the writes are exactly the published files followed
by the manifest, and no write targets the index path. -/
theorem marker_error_trace (drafts : List (List Char × List Char))
    (idx err : List Char)
    (h : updateIndexContent idx (buildPosts drafts) = Except.error err) :
    (buildWrites drafts idx).2 = true ∧
    (buildWrites drafts idx).1 = publishedOf drafts ++ [(manifestPath, manifestOf drafts)] ∧
    ∀ w ∈ (buildWrites drafts idx).1, w.1 ≠ indexPathName := by
  unfold buildWrites
  rw [h]
  refine ⟨rfl, rfl, ?_⟩
  intro w hw
  rcases List.mem_append.1 hw with hpub | hman
  · obtain ⟨t, ht⟩ := published_path_shape (draftFilter drafts) [] w hpub
    rw [ht]
    intro hcontra
    have hbi : 'b' = 'i' := by
      have hh := congrArg (fun l => l.head?) hcontra
      simp [indexPathName] at hh
    exact absurd hbi (by decide)
  · have hw1 : w = (manifestPath, manifestOf drafts) := by simpa using hman
    rw [hw1]
    show manifestPath ≠ indexPathName
    decide

/-- Witness for C2 (amended) at a one-draft build and a marker-free index. -/
theorem marker_error_trace_witness :
    (buildWrites [("a.html".toList, "hi".toList)] "no markers".toList).2 = true ∧
    (buildWrites [("a.html".toList, "hi".toList)] "no markers".toList).1 =
      publishedOf [("a.html".toList, "hi".toList)] ++
        [(manifestPath, manifestOf [("a.html".toList, "hi".toList)])] ∧
    ∀ w ∈ (buildWrites [("a.html".toList, "hi".toList)] "no markers".toList).1,
      w.1 ≠ indexPathName :=
  marker_error_trace [("a.html".toList, "hi".toList)] "no markers".toList
    "Blog markers not found in index.html".toList (by rfl)

/-- Counterexample to C2 as stated: with one draft and a marker-free index
document, the build does fail, yet the write trace already holds the
published document under the output directory (and the manifest) before the
failure - so output files have been modified at the moment of failure. -/
theorem marker_error_after_writes_counterexample :
    (buildWrites [("a.html".toList, "hi".toList)] "no markers".toList).2 = true ∧
    ("blog/a.html".toList, "hi".toList) ∈
      (buildWrites [("a.html".toList, "hi".toList)] "no markers".toList).1 ∧
    (manifestPath, manifestOf [("a.html".toList, "hi".toList)]) ∈
      (buildWrites [("a.html".toList, "hi".toList)] "no markers".toList).1 := by
  refine ⟨by decide, by decide, ?_⟩
  simp [buildWrites]
  decide

/-! ### C10: an empty `<title>` element does not fall through to `<h1>` -/

/-- C10: when the document holds a `<title>` element whose cleaned content
is empty, the extractor returns the empty string from the title branch
without consulting any `<h1>`, and the caller then falls back to the
humanized slug. -/
theorem empty_title_no_h1_fallthrough (html slug inner : List Char)
    (hfind : findTagInner "<title".toList "</title>".toList html = some inner)
    (hempty : cleanupWhitespace (decodeEntities (stripHtml inner)) = []) :
    extractTitle html = [] ∧
    postTitle html slug =
      cleanupWhitespace (toTitleCase (slug.map (fun c => if c == '-' then ' ' else c))) := by
  have h1 : extractTitle html = [] := by
    unfold extractTitle
    rw [hfind]
    exact hempty
  refine ⟨h1, ?_⟩
  unfold postTitle
  rw [h1]
  rfl

/-- Witness for C10: a whitespace-only `<title>` next to a nonempty `<h1>`;
the post title is the humanized slug, not the heading. -/
theorem empty_title_no_h1_fallthrough_witness :
    extractTitle "<title> </title><h1>Real</h1>".toList = [] ∧
    postTitle "<title> </title><h1>Real</h1>".toList "my-post".toList =
      cleanupWhitespace (toTitleCase ("my-post".toList.map (fun c => if c == '-' then ' ' else c))) :=
  empty_title_no_h1_fallthrough _ _ " ".toList (by rfl) (by rfl)

/-! ### C3: excerpt cap and word-boundary behavior -/

/-- A character at which a cut does not split a word: whitespace or one of
the punctuation and quote characters stripped by `shortenExcerpt`. -/
def notWordChar (c : Char) : Bool :=
  isJsWs c || isPunctStrip c || isQuoteStrip c

theorem trimLastWord_length_le (l : List Char) :
    (trimLastWord l).length ≤ l.length := by
  unfold trimLastWord
  by_cases h : (l.reverse.dropWhile (fun c => !isJsWs c)).isEmpty
  · rw [if_pos h]
  · rw [if_neg h]
    calc ((l.reverse.dropWhile (fun c => !isJsWs c)).dropWhile isJsWs).reverse.length
        = ((l.reverse.dropWhile (fun c => !isJsWs c)).dropWhile isJsWs).length := by
          rw [List.length_reverse]
      _ ≤ (l.reverse.dropWhile (fun c => !isJsWs c)).length :=
          (List.dropWhile_sublist _).length_le
      _ ≤ l.reverse.length := (List.dropWhile_sublist _).length_le
      _ = l.length := by rw [List.length_reverse]

theorem trimLastWord_split (l : List Char) (hws : ∃ c ∈ l, isJsWs c = true) :
    ∃ w rest2, l = trimLastWord l ++ w :: rest2 ∧ isJsWs w = true := by
  obtain ⟨c, hc, hcw⟩ := hws
  have hr1ne : l.reverse.dropWhile (fun c => !isJsWs c) ≠ [] := by
    intro h0
    rw [List.dropWhile_eq_nil_iff] at h0
    have hcontra := h0 c (List.mem_reverse.2 hc)
    simp [hcw] at hcontra
  obtain ⟨d, r1t, hd⟩ := List.exists_cons_of_ne_nil hr1ne
  have hdw : isJsWs d = true := by
    have hh := dropWhile_head_not (fun c => !isJsWs c) l.reverse d r1t hd
    simpa using hh
  unfold trimLastWord
  rw [if_neg (by simp [hd])]
  have hsplit1 : l.reverse = l.reverse.takeWhile (fun c => !isJsWs c) ++
      l.reverse.dropWhile (fun c => !isJsWs c) :=
    (List.takeWhile_append_dropWhile (fun c => !isJsWs c) l.reverse).symm
  have hsplit2 : l.reverse.dropWhile (fun c => !isJsWs c) =
      (l.reverse.dropWhile (fun c => !isJsWs c)).takeWhile isJsWs ++
      (l.reverse.dropWhile (fun c => !isJsWs c)).dropWhile isJsWs :=
    (List.takeWhile_append_dropWhile isJsWs _).symm
  have htk : (l.reverse.dropWhile (fun c => !isJsWs c)).takeWhile isJsWs =
      d :: r1t.takeWhile isJsWs := by
    rw [hd, List.takeWhile_cons_of_pos hdw]
  have hl : l = ((l.reverse.dropWhile (fun c => !isJsWs c)).dropWhile isJsWs).reverse ++
      ((r1t.takeWhile isJsWs).reverse ++ ([d] ++
        (l.reverse.takeWhile (fun c => !isJsWs c)).reverse)) := by
    conv_lhs => rw [← List.reverse_reverse l]
    conv_lhs => rw [hsplit1]
    conv_lhs => rw [hsplit2, htk]
    simp [List.reverse_append]
  rcases htkr : (r1t.takeWhile isJsWs).reverse with _ | ⟨wh, wt⟩
  · refine ⟨d, (l.reverse.takeWhile (fun c => !isJsWs c)).reverse, ?_, hdw⟩
    conv_lhs => rw [hl]
    rw [htkr]
    simp
  · refine ⟨wh, wt ++ ([d] ++ (l.reverse.takeWhile (fun c => !isJsWs c)).reverse), ?_, ?_⟩
    · conv_lhs => rw [hl]
      rw [htkr]
      simp
    · have hwh : wh ∈ r1t.takeWhile isJsWs := by
        rw [← List.mem_reverse, htkr]
        simp
      exact List.mem_takeWhile_imp hwh

theorem rdropWhile_split (p : Char → Bool) (t : List Char) :
    t = t.rdropWhile p ++ t.rtakeWhile p ∧ ∀ x ∈ t.rtakeWhile p, p x = true :=
  ⟨(rdropWhile_append_rtakeWhile p t).symm, fun _ hx => List.mem_rtakeWhile_imp hx⟩

/-- C3 (amended): every excerpt is at most 200 characters long with its
ellipsis; text of at most 200 characters is returned unchanged; and when
truncation happens on text whose first 199 characters hold at least one
whitespace character, the kept prefix ends at a word boundary - the
character of the original text right after it is whitespace or one of the
stripped punctuation or quote characters.  (A single unbroken word longer
than the cap is cut mid-word; see the counterexample.) -/
theorem shortenExcerpt_props (text : List Char) :
    (shortenExcerpt text).length ≤ 200 ∧
    (text.length ≤ 200 → shortenExcerpt text = text) ∧
    (200 < text.length → (∃ c ∈ text.take 199, isJsWs c = true) →
      ∃ r c rest, shortenExcerpt text = r ++ [hellip] ∧ text = r ++ c :: rest ∧
        notWordChar c = true) := by
  unfold shortenExcerpt shortenExcerptAt
  by_cases hle : text.length ≤ 200
  · rw [if_pos hle]
    exact ⟨hle, fun _ => rfl, fun hgt => absurd hle (by omega)⟩
  · rw [if_neg hle]
    refine ⟨?_, fun h => absurd h hle, fun hgt hws => ?_⟩
    · have h1 : (text.take (200 - 1)).length ≤ 199 := by
        simp [List.length_take]
      have h2 : (trimLastWord (text.take (200 - 1))).length ≤ 199 :=
        le_trans (trimLastWord_length_le _) h1
      have h3 : ((trimLastWord (text.take (200 - 1))).rdropWhile isPunctStrip).length ≤ 199 :=
        le_trans ( List.rdropWhile_prefix _ _).length_le h2
      have h4 : (((trimLastWord (text.take (200 - 1))).rdropWhile isPunctStrip).rdropWhile isQuoteStrip).length ≤ 199 :=
        le_trans ( List.rdropWhile_prefix _ _).length_le h3
      simpa [dropTrailing] using h4
    · -- the word-boundary case
      obtain ⟨w, rest2, hsplit, hw⟩ := trimLastWord_split (text.take (200 - 1)) (by simpa using hws)
      obtain ⟨hsp3, hall3⟩ := rdropWhile_split isPunctStrip (trimLastWord (text.take (200 - 1)))
      obtain ⟨hsp4, hall4⟩ := rdropWhile_split isQuoteStrip
        ((trimLastWord (text.take (200 - 1))).rdropWhile isPunctStrip)
      have htext : text = text.take (200 - 1) ++ text.drop (200 - 1) :=
        (List.take_append_drop _ _).symm
      set t2 := trimLastWord (text.take (200 - 1)) with ht2
      set t3 := t2.rdropWhile isPunctStrip with ht3
      set t4 := t3.rdropWhile isQuoteStrip with ht4
      rcases hq : t3.rtakeWhile isQuoteStrip with _ | ⟨c4, d4t⟩
      · rcases hp : t2.rtakeWhile isPunctStrip with _ | ⟨c3, d3t⟩
        · -- nothing stripped: boundary character is the whitespace w
          refine ⟨t4, w, rest2 ++ text.drop (200 - 1), ?_, ?_, ?_⟩
          · simp [dropTrailing, ← ht3, ← ht4]
          · have e2 : t2 = t3 := by rw [hsp3, hp, List.append_nil]
            have e3 : t3 = t4 := by rw [hsp4, hq, List.append_nil]
            conv_lhs => rw [htext, hsplit]
            rw [e2, e3]
            simp
          · simp [notWordChar, hw]
        · -- punctuation stripped: boundary character is c3
          refine ⟨t4, c3, d3t ++ (w :: rest2 ++ text.drop (200 - 1)), ?_, ?_, ?_⟩
          · simp [dropTrailing, ← ht3, ← ht4]
          · have e3 : t3 = t4 := by rw [hsp4, hq, List.append_nil]
            conv_lhs => rw [htext, hsplit]
            conv_lhs => rw [hsp3, hp]
            rw [e3]
            simp
          · have := hall3 c3 (by rw [hp]; simp)
            simp [notWordChar, this]
      · -- quote characters stripped: boundary character is c4
        refine ⟨t4, c4, d4t ++ (t2.rtakeWhile isPunctStrip ++ (w :: rest2 ++ text.drop (200 - 1))), ?_, ?_, ?_⟩
        · simp [dropTrailing, ← ht3, ← ht4]
        · conv_lhs => rw [htext, hsplit]
          conv_lhs => rw [hsp3]
          conv_lhs => rw [hsp4, hq]
          simp
        · have := hall4 c4 (by rw [hq]; simp)
          simp [notWordChar, this]

/-- Counterexample to C3 as stated: a single 201-character word is
truncated mid-word - the kept prefix is followed in the original text by a
word character, so the cut does not fall on a whole-word boundary. -/
theorem shortenExcerpt_word_split_counterexample :
    200 < (List.replicate 201 'a').length ∧
    shortenExcerpt (List.replicate 201 'a') = List.replicate 199 'a' ++ [hellip] ∧
    ∀ r c rest, shortenExcerpt (List.replicate 201 'a') = r ++ [hellip] →
      List.replicate 201 'a' = r ++ c :: rest → notWordChar c = false := by
  refine ⟨by decide, by decide, ?_⟩
  intro r c rest h1 h2
  have hr : r = List.replicate 199 'a' := by
    have h3 : r ++ [hellip] = List.replicate 199 'a' ++ [hellip] := by
      rw [← h1]; decide
    exact List.append_cancel_right h3
  subst hr
  have h4 : List.replicate 201 'a' = List.replicate 199 'a' ++ ['a', 'a'] := by decide
  rw [h4] at h2
  have h5 : (['a', 'a'] : List Char) = c :: rest := List.append_cancel_left h2
  have hc : c = 'a' := by
    cases h5
    rfl
  rw [hc]
  decide

/-- Witness for C3 (amended): the bound and the word-boundary conclusion at
a 211-character text with whitespace, and the identity at a short text. -/
theorem shortenExcerpt_props_witness :
    (shortenExcerpt (List.replicate 150 'a' ++ ' ' :: List.replicate 60 'b')).length ≤ 200 ∧
    shortenExcerpt "hi".toList = "hi".toList ∧
    ∃ r c rest,
      shortenExcerpt (List.replicate 150 'a' ++ ' ' :: List.replicate 60 'b') = r ++ [hellip] ∧
      List.replicate 150 'a' ++ ' ' :: List.replicate 60 'b' = r ++ c :: rest ∧
      notWordChar c = true :=
  ⟨(shortenExcerpt_props _).1,
   (shortenExcerpt_props "hi".toList).2.1 (by decide),
   (shortenExcerpt_props _).2.2 (by decide) ⟨' ', by decide⟩⟩

/-! ### C5: the listing markup escapes title and excerpt -/

theorem mem_replaceChar {c a : Char} {rep l : List Char}
    (h : c ∈ replaceChar a rep l) : c ∈ rep ∨ (c ∈ l ∧ c ≠ a) := by
  unfold replaceChar at h
  rcases List.mem_flatMap.1 h with ⟨x, hx, hcx⟩
  by_cases hxa : x == a
  · rw [if_pos hxa] at hcx
    exact Or.inl hcx
  · rw [if_neg hxa] at hcx
    rcases List.mem_singleton.1 hcx with rfl
    exact Or.inr ⟨hx, by simpa using hxa⟩

/-- No escaped character other than the ampersand of an entity survives:
the output of `escapeHtml` holds no raw `<`, `>`, double quote or
apostrophe. -/
theorem escapeHtml_no_special (s : List Char) :
    ∀ c ∈ escapeHtml s, c ≠ '<' ∧ c ≠ '>' ∧ c ≠ '"' ∧ c ≠ quoteC := by
  intro c hc
  unfold escapeHtml at hc
  rcases mem_replaceChar hc with h5 | ⟨hc4, hne5⟩
  · simp at h5
    rcases h5 with rfl | rfl | rfl | rfl | rfl <;> exact ⟨by decide, by decide, by decide, by decide⟩
  · rcases mem_replaceChar hc4 with h4 | ⟨hc3, hne4⟩
    · simp at h4
      rcases h4 with rfl | rfl | rfl | rfl | rfl | rfl <;>
        exact ⟨by decide, by decide, by decide, by decide⟩
    · rcases mem_replaceChar hc3 with h3 | ⟨hc2, hne3⟩
      · simp at h3
        rcases h3 with rfl | rfl | rfl | rfl <;>
          exact ⟨by decide, by decide, by decide, by decide⟩
      · rcases mem_replaceChar hc2 with h2 | ⟨hc1, hne2⟩
        · simp at h2
          rcases h2 with rfl | rfl | rfl | rfl <;>
            exact ⟨by decide, by decide, by decide, by decide⟩
        · rcases mem_replaceChar hc1 with h1 | ⟨hc0, hne1⟩
          · simp at h1
            rcases h1 with rfl | rfl | rfl | rfl | rfl <;>
              exact ⟨by decide, by decide, by decide, by decide⟩
          · exact ⟨hne2, hne3, hne4, hne5⟩

/-- Every ampersand of the string starts one of the five entities emitted
by `escapeHtml`. -/
def ampOk : List Char → Bool
  | [] => true
  | c :: rest =>
    if c == '&' then
      ("amp;".toList.isPrefixOf rest || "lt;".toList.isPrefixOf rest ||
       "gt;".toList.isPrefixOf rest || "quot;".toList.isPrefixOf rest ||
       "#39;".toList.isPrefixOf rest) && ampOk rest
    else ampOk rest

theorem isPrefixOf_append_self (p t : List Char) : p.isPrefixOf (p ++ t) = true :=
  List.isPrefixOf_iff_prefix.2 (List.prefix_append p t)

theorem ampOk_cons_ne {c : Char} (t : List Char) (h : ¬ c = '&') :
    ampOk (c :: t) = ampOk t := by
  simp [ampOk, h]

theorem escapeHtml_cons (c : Char) (l : List Char) :
    escapeHtml (c :: l) = escapeHtml [c] ++ escapeHtml l := by
  unfold escapeHtml replaceChar
  simp [List.flatMap_append]

theorem ampOk_escapeHtml (s : List Char) : ampOk (escapeHtml s) = true := by
  induction s with
  | nil => rfl
  | cons c l ih =>
    rw [escapeHtml_cons]
    by_cases h1 : c = '&'
    · subst h1
      have he : escapeHtml ['&'] = "&amp;".toList := by rfl
      rw [he]
      show ampOk ('&' :: ("amp;".toList ++ escapeHtml l)) = true
      unfold ampOk
      rw [if_pos (by decide)]
      rw [isPrefixOf_append_self]
      simp only [Bool.true_or, Bool.true_and]
      show ampOk ('a' :: 'm' :: 'p' :: ';' :: escapeHtml l) = true
      rw [ampOk_cons_ne _ (by decide), ampOk_cons_ne _ (by decide),
        ampOk_cons_ne _ (by decide), ampOk_cons_ne _ (by decide)]
      exact ih
    · by_cases h2 : c = '<'
      · subst h2
        show ampOk ('&' :: ("lt;".toList ++ escapeHtml l)) = true
        unfold ampOk
        rw [if_pos (by decide)]
        have hp : "lt;".toList.isPrefixOf ("lt;".toList ++ escapeHtml l) = true :=
          isPrefixOf_append_self _ _
        rw [hp]
        simp only [Bool.or_true, Bool.true_or, Bool.true_and]
        show ampOk ('l' :: 't' :: ';' :: escapeHtml l) = true
        rw [ampOk_cons_ne _ (by decide), ampOk_cons_ne _ (by decide),
          ampOk_cons_ne _ (by decide)]
        exact ih
      · by_cases h3 : c = '>'
        · subst h3
          show ampOk ('&' :: ("gt;".toList ++ escapeHtml l)) = true
          unfold ampOk
          rw [if_pos (by decide)]
          have hp : "gt;".toList.isPrefixOf ("gt;".toList ++ escapeHtml l) = true :=
            isPrefixOf_append_self _ _
          rw [hp]
          simp only [Bool.or_true, Bool.true_or, Bool.true_and]
          show ampOk ('g' :: 't' :: ';' :: escapeHtml l) = true
          rw [ampOk_cons_ne _ (by decide), ampOk_cons_ne _ (by decide),
            ampOk_cons_ne _ (by decide)]
          exact ih
        · by_cases h4 : c = '"'
          · subst h4
            show ampOk ('&' :: ("quot;".toList ++ escapeHtml l)) = true
            unfold ampOk
            rw [if_pos (by decide)]
            have hp : "quot;".toList.isPrefixOf ("quot;".toList ++ escapeHtml l) = true :=
              isPrefixOf_append_self _ _
            rw [hp]
            simp only [Bool.or_true, Bool.true_or, Bool.true_and]
            show ampOk ('q' :: 'u' :: 'o' :: 't' :: ';' :: escapeHtml l) = true
            rw [ampOk_cons_ne _ (by decide), ampOk_cons_ne _ (by decide),
              ampOk_cons_ne _ (by decide), ampOk_cons_ne _ (by decide),
              ampOk_cons_ne _ (by decide)]
            exact ih
          · by_cases h5 : c = quoteC
            · subst h5
              show ampOk ('&' :: ("#39;".toList ++ escapeHtml l)) = true
              unfold ampOk
              rw [if_pos (by decide)]
              have hp : "#39;".toList.isPrefixOf ("#39;".toList ++ escapeHtml l) = true :=
                isPrefixOf_append_self _ _
              rw [hp]
              simp only [Bool.or_true, Bool.true_or, Bool.true_and]
              show ampOk ('#' :: '3' :: '9' :: ';' :: escapeHtml l) = true
              rw [ampOk_cons_ne _ (by decide), ampOk_cons_ne _ (by decide),
                ampOk_cons_ne _ (by decide), ampOk_cons_ne _ (by decide)]
              exact ih
            · have he : escapeHtml [c] = [c] := by
                unfold escapeHtml replaceChar
                simp [h1, h2, h3, h4, h5]
              rw [he, List.singleton_append, ampOk_cons_ne _ h1]
              exact ih

theorem mem_joinLines_infix {l : List Char} {L : List (List Char)}
    (h : l ∈ L) : l <:+: joinLines L := by
  induction L with
  | nil => cases h
  | cons x rest ih =>
    rcases rest with _ | ⟨y, r⟩
    · rcases List.mem_singleton.1 h with rfl
      exact List.infix_refl _
    · rcases List.mem_cons.1 h with rfl | hm
      · show l <:+: l ++ '\n' :: joinLines (y :: r)
        exact (List.prefix_append l _).isInfix
      · have hi := ih hm
        show l <:+: x ++ '\n' :: joinLines (y :: r)
        exact ((hi.trans (List.suffix_cons '\n' _).isInfix).trans
          (List.suffix_append x _).isInfix)

theorem titleLine_mem_blogLines {p : Post} {posts : List Post} (indent : List Char)
    (hp : p ∈ posts) :
    (indent ++ ("    <h3 class=\"text-xl font-semibold mb-3\">".toList ++
      (escapeHtml p.title ++ "</h3>".toList))) ∈ generateBlogLines posts indent ∧
    (indent ++ ("    <p class=\"mb-4\">".toList ++
      (escapeHtml p.excerpt ++ "</p>".toList))) ∈ generateBlogLines posts indent := by
  have hne : posts ≠ [] := by
    intro h0
    rw [h0] at hp
    cases hp
  have hbody : ∀ q ∈ posts,
      (indent ++ ("    <h3 class=\"text-xl font-semibold mb-3\">".toList ++
        (escapeHtml q.title ++ "</h3>".toList))) ∈ (posts.flatMap (articleLines indent)).dropLast ∧
      (indent ++ ("    <p class=\"mb-4\">".toList ++
        (escapeHtml q.excerpt ++ "</p>".toList))) ∈ (posts.flatMap (articleLines indent)).dropLast := by
    clear hp hne
    induction posts with
    | nil => intro q hq; cases hq
    | cons a rest ih =>
      intro q hq
      rcases rest with _ | ⟨b, r⟩
      · rcases List.mem_singleton.1 hq with rfl
        show _ ∈ (articleLines indent q ++ []).dropLast ∧
          _ ∈ (articleLines indent q ++ []).dropLast
        rw [List.append_nil]
        unfold articleLines
        refine ⟨?_, ?_⟩ <;> simp [List.dropLast]
      · have hrne : (b :: r).flatMap (articleLines indent) ≠ [] := by
          simp [articleLines, List.flatMap_cons]
        rw [List.flatMap_cons, List.dropLast_append_of_ne_nil _ hrne]
        rcases List.mem_cons.1 hq with rfl | hm
        · constructor
          · apply List.mem_append_left
            unfold articleLines
            simp
          · apply List.mem_append_left
            unfold articleLines
            simp
        · obtain ⟨ih1, ih2⟩ := ih q hm
          exact ⟨List.mem_append_right _ ih1, List.mem_append_right _ ih2⟩
  obtain ⟨hb1, hb2⟩ := hbody p hp
  unfold generateBlogLines
  rw [if_neg (by simpa [List.isEmpty_iff] using hne)]
  constructor
  · apply List.mem_cons_of_mem
    exact List.mem_append_left _ hb1
  · apply List.mem_cons_of_mem
    exact List.mem_append_left _ hb2

/-- C5: for every post of the listing, the generated markup holds the
escaped title and escaped excerpt, and the escaping leaves no raw `<`, `>`,
double quote or apostrophe, while every remaining ampersand begins one of
the five escape entities. -/
theorem listing_markup_escaped (posts : List Post) (indent : List Char)
    (p : Post) (hp : p ∈ posts) :
    escapeHtml p.title <:+: generateBlogMarkup posts indent ∧
    escapeHtml p.excerpt <:+: generateBlogMarkup posts indent ∧
    (∀ c ∈ escapeHtml p.title, c ≠ '<' ∧ c ≠ '>' ∧ c ≠ '"' ∧ c ≠ quoteC) ∧
    (∀ c ∈ escapeHtml p.excerpt, c ≠ '<' ∧ c ≠ '>' ∧ c ≠ '"' ∧ c ≠ quoteC) ∧
    ampOk (escapeHtml p.title) = true ∧
    ampOk (escapeHtml p.excerpt) = true := by
  obtain ⟨h1, h2⟩ := titleLine_mem_blogLines indent hp
  refine ⟨?_, ?_, escapeHtml_no_special _, escapeHtml_no_special _,
    ampOk_escapeHtml _, ampOk_escapeHtml _⟩
  · have hline := mem_joinLines_infix h1
    have hin : escapeHtml p.title <:+:
        indent ++ ("    <h3 class=\"text-xl font-semibold mb-3\">".toList ++
          (escapeHtml p.title ++ "</h3>".toList)) := by
      refine ⟨indent ++ "    <h3 class=\"text-xl font-semibold mb-3\">".toList,
        "</h3>".toList, ?_⟩
      simp
    exact hin.trans hline
  · have hline := mem_joinLines_infix h2
    have hin : escapeHtml p.excerpt <:+:
        indent ++ ("    <p class=\"mb-4\">".toList ++
          (escapeHtml p.excerpt ++ "</p>".toList)) := by
      refine ⟨indent ++ "    <p class=\"mb-4\">".toList, "</p>".toList, ?_⟩
      simp
    exact hin.trans hline

/-- A concrete post whose title holds all five special characters. -/
def specialPost : Post :=
  { slug := "s".toList
    title := "<t&\"".toList ++ [quoteC]
    excerpt := "e>".toList
    href := "blog/s.html".toList }

/-- Witness for C5 at a concrete post with all five special characters. -/
theorem listing_markup_escaped_witness :
    escapeHtml specialPost.title <:+: generateBlogMarkup [specialPost] "  ".toList ∧
    escapeHtml specialPost.excerpt <:+: generateBlogMarkup [specialPost] "  ".toList ∧
    (∀ c ∈ escapeHtml specialPost.title, c ≠ '<' ∧ c ≠ '>' ∧ c ≠ '"' ∧ c ≠ quoteC) ∧
    (∀ c ∈ escapeHtml specialPost.excerpt, c ≠ '<' ∧ c ≠ '>' ∧ c ≠ '"' ∧ c ≠ quoteC) ∧
    ampOk (escapeHtml specialPost.title) = true ∧
    ampOk (escapeHtml specialPost.excerpt) = true :=
  listing_markup_escaped _ _ _ (List.mem_singleton.2 rfl)

/-! ### C9: slug invariants -/

/-- A slug character: lowercase ASCII alphanumeric or hyphen. -/
def isSlugChar (c : Char) : Bool :=
  isLowerAlnum c || c == '-'

/-- No two adjacent hyphens anywhere in the list. -/
def noDDb : List Char → Bool
  | [] => true
  | [_] => true
  | a :: b :: rest => !(a == '-' && b == '-') && noDDb (b :: rest)

theorem noDDb_tail {a : Char} {l : List Char} (h : noDDb (a :: l) = true) :
    noDDb l = true := by
  cases l with
  | nil => rfl
  | cons b rest =>
    unfold noDDb at h
    exact (Bool.and_eq_true_iff.1 h).2

theorem noDDb_cons_of {a : Char} {l : List Char}
    (h1 : a ≠ '-' ∨ l.head? ≠ some '-') (h2 : noDDb l = true) :
    noDDb (a :: l) = true := by
  cases l with
  | nil => rfl
  | cons b rest =>
    unfold noDDb
    rw [h2, Bool.and_true]
    rcases h1 with ha | hb
    · simp [ha]
    · have hbne : b ≠ '-' := by
        intro h0
        exact hb (by rw [h0]; rfl)
      simp [hbne]

theorem noDDb_head2 {l : List Char} (h : noDDb ('-' :: l) = true) :
    l.head? ≠ some '-' := by
  cases l with
  | nil => simp
  | cons b rest =>
    unfold noDDb at h
    obtain ⟨h1, -⟩ := Bool.and_eq_true_iff.1 h
    simp only [List.head?_cons, Option.some.injEq]
    intro h0
    have hb : b = '-' := Option.some.injEq b '-' ▸ by
      simpa using h0
    rw [hb] at h1
    simp at h1

theorem collapseNonAlnumGo_chars (l : List Char) :
    ∀ b, ∀ c ∈ collapseNonAlnumGo b l, isSlugChar c = true := by
  induction l with
  | nil => intro b c hc; cases hc
  | cons a rest ih =>
    intro b c hc
    unfold collapseNonAlnumGo at hc
    by_cases ha : isLowerAlnum a
    · rw [if_pos ha] at hc
      rcases List.mem_cons.1 hc with rfl | hm
      · simp [isSlugChar, ha]
      · exact ih false c hm
    · rw [if_neg ha] at hc
      by_cases hb : b
      · rw [if_pos hb] at hc
        exact ih true c hc
      · rw [if_neg hb] at hc
        rcases List.mem_cons.1 hc with rfl | hm
        · simp [isSlugChar]
        · exact ih true c hm

theorem collapseNonAlnumGo_true_head (l : List Char) :
    ∀ c, (collapseNonAlnumGo true l).head? = some c → isLowerAlnum c = true := by
  induction l with
  | nil => intro c hc; cases hc
  | cons a rest ih =>
    intro c hc
    unfold collapseNonAlnumGo at hc
    by_cases ha : isLowerAlnum a
    · rw [if_pos ha] at hc
      rw [List.head?_cons, Option.some.injEq] at hc
      rw [← hc]
      exact ha
    · rw [if_neg ha, if_pos rfl] at hc
      exact ih c hc

theorem collapseNonAlnumGo_noDD (l : List Char) :
    ∀ b, noDDb (collapseNonAlnumGo b l) = true := by
  induction l with
  | nil => intro b; rfl
  | cons a rest ih =>
    intro b
    unfold collapseNonAlnumGo
    by_cases ha : isLowerAlnum a
    · rw [if_pos ha]
      refine noDDb_cons_of (Or.inl ?_) (ih false)
      intro h0
      rw [h0] at ha
      exact absurd ha (by decide)
    · rw [if_neg ha]
      by_cases hb : b
      · rw [if_pos hb]
        exact ih true
      · rw [if_neg hb]
        refine noDDb_cons_of (Or.inr ?_) (ih true)
        intro h0
        have := collapseNonAlnumGo_true_head rest '-' h0
        exact absurd this (by decide)

theorem noDDb_iff_no_dd_run (l : List Char) :
    noDDb l = true ↔ ¬ (['-', '-'] <:+: l) := by
  induction l with
  | nil =>
    simp only [noDDb, true_iff]
    intro h
    have := h.length_le
    simp at this
  | cons a rest ih =>
    constructor
    · intro h hinf
      rcases List.infix_cons_iff.1 hinf with hpre | hinf2
      · obtain ⟨t, ht⟩ := hpre
        have ht2 : a :: rest = '-' :: ('-' :: t) := ht.symm
        obtain ⟨ha, hrest⟩ := List.cons_eq_cons.1 ht2
        subst ha
        subst hrest
        unfold noDDb at h
        simp at h
      · exact (ih.1 (noDDb_tail h)) hinf2
    · intro h
      cases rest with
      | nil => rfl
      | cons b r2 =>
        unfold noDDb
        rw [Bool.and_eq_true_iff]
        constructor
        · by_cases hab : a = '-' ∧ b = '-'
          · exfalso
            apply h
            refine ⟨[], r2, ?_⟩
            simp [hab.1, hab.2]
          · simp only [Bool.not_eq_true']
            rw [Bool.and_eq_false_iff]
            by_cases ha : a = '-'
            · right
              have hb : ¬ b = '-' := fun hb0 => hab ⟨ha, hb0⟩
              simp [hb]
            · left
              simp [ha]
        · refine ih.2 ?_
          intro hinf
          exact h (hinf.trans (List.suffix_cons a _).isInfix)

theorem noDDb_of_infix {m l : List Char} (h : m <:+: l) (hl : noDDb l = true) :
    noDDb m = true :=
  (noDDb_iff_no_dd_run m).2 (fun hdd => (noDDb_iff_no_dd_run l).1 hl (hdd.trans h))

theorem infix_dd_reverse (m : List Char) :
    (['-', '-'] <:+: m.reverse) ↔ (['-', '-'] <:+: m) := by
  constructor
  · intro h
    have h2 : (['-', '-'] : List Char).reverse <:+: m.reverse := by simpa using h
    exact List.reverse_infix.1 h2
  · intro h
    have h2 : (['-', '-'] : List Char).reverse <:+: m.reverse := List.reverse_infix.2 h
    simpa using h2

theorem noDDb_reverse (l : List Char) : noDDb l.reverse = noDDb l := by
  by_cases h : noDDb l = true
  · rw [h]
    exact (noDDb_iff_no_dd_run _).2
      (fun hinf => (noDDb_iff_no_dd_run l).1 h ((infix_dd_reverse l).1 hinf))
  · have h2 : noDDb l = false := by simpa using h
    rw [h2]
    by_contra h3
    have h4 : noDDb l.reverse = true := by
      cases hrv : noDDb l.reverse
      · exact absurd hrv h3
      · rfl
    have h5 : noDDb l = true :=
      (noDDb_iff_no_dd_run l).2
        (fun hinf => (noDDb_iff_no_dd_run _).1 h4 ((infix_dd_reverse l).2 hinf))
    rw [h5] at h2
    cases h2

theorem dropLeadHyphen_suffix (l : List Char) : dropLeadHyphen l <:+ l := by
  unfold dropLeadHyphen
  split
  · exact List.suffix_cons '-' _
  · exact List.suffix_refl _

theorem dropLeadHyphen_head {l : List Char} (h : noDDb l = true) :
    (dropLeadHyphen l).head? ≠ some '-' := by
  unfold dropLeadHyphen
  split
  case _ r =>
    exact noDDb_head2 h
  case _ other hother =>
    intro h0
    cases hl : l with
    | nil =>
      rw [hl] at h0
      cases h0
    | cons c rest =>
      rw [hl] at h0
      simp only [List.head?_cons, Option.some.injEq] at h0
      subst h0
      exact hother rest hl

theorem dropTrailHyphen_isPrefix (l : List Char) : dropTrailHyphen l <+: l := by
  unfold dropTrailHyphen
  have h := dropLeadHyphen_suffix l.reverse
  obtain ⟨s, hs⟩ := h
  refine ⟨s.reverse, ?_⟩
  have h2 := congrArg List.reverse hs
  rw [List.reverse_append, List.reverse_reverse] at h2
  exact h2

theorem stripEdgeHyphens_within (l : List Char) : stripEdgeHyphens l <:+: l := by
  unfold stripEdgeHyphens
  exact (dropTrailHyphen_isPrefix _).isInfix.trans (dropLeadHyphen_suffix l).isInfix

theorem head?_of_isPrefix {p m : List Char} (h : p <+: m) :
    p.head? = none ∨ p.head? = m.head? := by
  cases p with
  | nil => exact Or.inl rfl
  | cons a t =>
    obtain ⟨s, hs⟩ := h
    right
    rw [← hs]
    rfl

theorem stripEdgeHyphens_head {l : List Char} (h : noDDb l = true) :
    (stripEdgeHyphens l).head? ≠ some '-' := by
  unfold stripEdgeHyphens
  rcases head?_of_isPrefix (dropTrailHyphen_isPrefix (dropLeadHyphen l)) with h1 | h1
  · rw [h1]
    simp
  · rw [h1]
    exact dropLeadHyphen_head h

theorem stripEdgeHyphens_last {l : List Char} (h : noDDb l = true) :
    (stripEdgeHyphens l).getLast? ≠ some '-' := by
  unfold stripEdgeHyphens dropTrailHyphen
  rw [List.getLast?_reverse]
  apply dropLeadHyphen_head
  rw [noDDb_reverse]
  exact noDDb_of_infix (dropLeadHyphen_suffix l).isInfix h

theorem stripEdgeHyphens_noDD {l : List Char} (h : noDDb l = true) :
    noDDb (stripEdgeHyphens l) = true :=
  noDDb_of_infix (stripEdgeHyphens_within l) h

theorem squashHyphensGo_id (l : List Char) (h : noDDb l = true) :
    squashHyphensGo false l = l ∧
    (l.head? ≠ some '-' → squashHyphensGo true l = l) := by
  induction l with
  | nil => exact ⟨rfl, fun _ => rfl⟩
  | cons c rest ih =>
    obtain ⟨ih1, ih2⟩ := ih (noDDb_tail h)
    constructor
    · unfold squashHyphensGo
      by_cases hc : c == '-'
      · rw [if_pos hc]
        have hc2 : c = '-' := by simpa using hc
        subst hc2
        rw [ih2 (noDDb_head2 h)]
        simp
      · rw [if_neg hc, ih1]
    · intro hhd
      unfold squashHyphensGo
      have hc : ¬ c == '-' := by
        simp only [List.head?_cons, ne_eq, Option.some.injEq] at hhd
        simpa using hhd
      rw [if_neg hc, ih1]

/-- C9: every slug is nonempty; its characters are lowercase ASCII
alphanumerics or hyphens; it neither starts nor ends with a hyphen; it
never holds two adjacent hyphens; and when the normalization chain
collapses to the empty string the fixed placeholder `post` is produced. -/
theorem slug_invariants (input : List Char) :
    slugify input ≠ [] ∧
    (∀ c ∈ slugify input, isSlugChar c = true) ∧
    (slugify input).head? ≠ some '-' ∧
    (slugify input).getLast? ≠ some '-' ∧
    ¬ (['-', '-'] <:+: slugify input) ∧
    (slugCore input = [] → slugify input = "post".toList) := by
  by_cases hemp : (slugCore input).isEmpty
  · have hs : slugify input = "post".toList := by
      unfold slugify
      rw [if_pos hemp]
    rw [hs]
    exact ⟨by decide, by decide, by decide, by decide, by decide, fun _ => rfl⟩
  · have hs : slugify input = slugCore input := by
      unfold slugify
      rw [if_neg hemp]
    have hm : noDDb (collapseNonAlnum (slugNormalize input)) = true :=
      collapseNonAlnumGo_noDD _ false
    have hsE : noDDb (stripEdgeHyphens (collapseNonAlnum (slugNormalize input))) = true :=
      stripEdgeHyphens_noDD hm
    have hhead := stripEdgeHyphens_head hm
    have hlast := stripEdgeHyphens_last hm
    have hsquash : slugCore input = stripEdgeHyphens (collapseNonAlnum (slugNormalize input)) := by
      unfold slugCore squashHyphens
      exact (squashHyphensGo_id _ hsE).1
    rw [hs, hsquash]
    refine ⟨?_, ?_, hhead, hlast, ?_, ?_⟩
    · intro h0
      apply hemp
      rw [hsquash, h0]
      rfl
    · intro c hc
      have hc2 : c ∈ collapseNonAlnum (slugNormalize input) :=
        (stripEdgeHyphens_within _).sublist.mem hc
      exact collapseNonAlnumGo_chars _ false c hc2
    · exact (noDDb_iff_no_dd_run _).1 hsE
    · intro h0
      exfalso
      apply hemp
      rw [hsquash, h0]
      rfl

/-- Witness for C9: the invariants at a concrete messy filename, and the
placeholder fallback at an all-punctuation filename. -/
theorem slug_invariants_witness :
    slugify "My First Post!!".toList ≠ [] ∧
    (∀ c ∈ slugify "My First Post!!".toList, isSlugChar c = true) ∧
    (slugify "My First Post!!".toList).head? ≠ some '-' ∧
    (slugify "My First Post!!".toList).getLast? ≠ some '-' ∧
    ¬ (['-', '-'] <:+: slugify "My First Post!!".toList) ∧
    slugify "!!!".toList = "post".toList :=
  ⟨(slug_invariants _).1, (slug_invariants _).2.1, (slug_invariants _).2.2.1,
   (slug_invariants _).2.2.2.1, (slug_invariants _).2.2.2.2.1,
   (slug_invariants "!!!".toList).2.2.2.2.2 (by decide)⟩

/-- The first character of every slug is alphanumeric. -/
theorem slugify_head_alnum (input : List Char) :
    ∃ c t, slugify input = c :: t ∧ isLowerAlnum c = true := by
  obtain ⟨hne, hchars, hhead, -⟩ := slug_invariants input
  cases hs : slugify input with
  | nil => exact absurd hs hne
  | cons c t =>
    refine ⟨c, t, rfl, ?_⟩
    have hc := hchars c (by rw [hs]; exact List.mem_cons_self c t)
    have hcne : c ≠ '-' := by
      intro h0
      apply hhead
      rw [hs, h0]
      rfl
    unfold isSlugChar at hc
    rcases Bool.or_eq_true_iff.1 hc with h | h
    · exact h
    · exact absurd (by simpa using h) hcne

/-- `ensureUniqueSlug` keeps the head character of the base slug. -/
theorem ensureUniqueSlug_head (s : List Char) (m : List (List Char × Nat))
    (c : Char) (t : List Char) (hs : s = c :: t) :
    ∃ t2, (ensureUniqueSlug s m).1 = c :: t2 := by
  unfold ensureUniqueSlug
  cases mapGet m s with
  | none =>
    exact ⟨t, hs⟩
  | some k =>
    refine ⟨t ++ '-' :: natStr k, ?_⟩
    rw [hs]
    rfl

/-! ### C6: title resolution order and nonemptiness -/

theorem isLowerAlnum_toNat {c : Char} (h : isLowerAlnum c = true) :
    (97 ≤ c.toNat ∧ c.toNat ≤ 122) ∨ (48 ≤ c.toNat ∧ c.toNat ≤ 57) := by
  unfold isLowerAlnum at h
  rcases Bool.or_eq_true_iff.1 h with h1 | h1 <;>
    obtain ⟨ha, hb⟩ := Bool.and_eq_true_iff.1 h1 <;>
    rw [decide_eq_true_iff] at ha hb
  · exact Or.inl ⟨ha, hb⟩
  · exact Or.inr ⟨ha, hb⟩

theorem isWordW_of_alnum {c : Char} (h : isLowerAlnum c = true) :
    isWordW c = true := by
  unfold isWordW Char.isAlphanum Char.isAlpha Char.isLower Char.isUpper Char.isDigit
  rcases isLowerAlnum_toNat h with ⟨h1, h2⟩ | ⟨h1, h2⟩
  · have hl : c.val ≥ 97 := h1
    have hr : c.val ≤ 122 := h2
    simp [hl, hr]
  · have hl : c.val ≥ 48 := h1
    have hr : c.val ≤ 57 := h2
    simp [hl, hr]

theorem isJsWs_false_of_bounds {c : Char} (h1 : 48 ≤ c.toNat) (h2 : c.toNat ≤ 122) :
    isJsWs c = false := by
  simp [isJsWs]
  omega

theorem toNat_ofNat_valid (n : Nat) (h : n < 55296) : (Char.ofNat n).toNat = n := by
  unfold Char.ofNat
  rw [dif_pos (Or.inl h)]
  rfl

theorem toUpper_bounds {c : Char} (h : isLowerAlnum c = true) :
    48 ≤ c.toUpper.toNat ∧ c.toUpper.toNat ≤ 122 := by
  unfold Char.toUpper
  by_cases hif : c.toNat ≥ 97 ∧ c.toNat ≤ 122
  · rw [if_pos hif]
    rw [toNat_ofNat_valid (c.toNat - 32) (by omega)]
    omega
  · rw [if_neg hif]
    rcases isLowerAlnum_toNat h with ⟨h1, h2⟩ | ⟨h1, h2⟩
    · exact absurd ⟨h1, h2⟩ hif
    · omega

theorem mem_collapseWsGo {x : Char} (hxw : isJsWs x = false) :
    ∀ (l : List Char) (b : Bool), x ∈ l → x ∈ collapseWsGo b l := by
  intro l
  induction l with
  | nil => intro b hx; cases hx
  | cons a rest ih =>
    intro b hx
    unfold collapseWsGo
    by_cases ha : isJsWs a
    · rw [if_pos ha]
      rcases List.mem_cons.1 hx with rfl | hm
      · rw [ha] at hxw; cases hxw
      · by_cases hb : b
        · rw [if_pos hb]
          exact ih true hm
        · rw [if_neg hb]
          exact List.mem_cons_of_mem _ (ih true hm)
    · rw [if_neg ha]
      rcases List.mem_cons.1 hx with rfl | hm
      · exact List.mem_cons_self x _
      · exact List.mem_cons_of_mem _ (ih false hm)

theorem mem_rdropWhile_of_not {x : Char} {p : Char → Bool} {l : List Char}
    (hx : x ∈ l) (hnp : p x = false) : x ∈ l.rdropWhile p := by
  unfold List.rdropWhile
  rw [List.mem_reverse]
  exact mem_dropWhile_of_not (List.mem_reverse.2 hx) (by simp [hnp])

theorem cleanup_ne_nil_of_mem {l : List Char} {x : Char}
    (hx : x ∈ l) (hnw : isJsWs x = false) : cleanupWhitespace l ≠ [] := by
  have h1 : x ∈ collapseWs l := mem_collapseWsGo hnw l false hx
  have h2 : x ∈ (collapseWs l).dropWhile isJsWs :=
    mem_dropWhile_of_not h1 (by simp [hnw])
  have h3 : x ∈ ((collapseWs l).dropWhile isJsWs).rdropWhile isJsWs :=
    mem_rdropWhile_of_not h2 hnw
  exact List.ne_nil_of_mem h3

theorem cleanup_has_nonws {y : List Char} (h : cleanupWhitespace y ≠ []) :
    ∃ x ∈ cleanupWhitespace y, isJsWs x = false := by
  rcases hc : cleanupWhitespace y with _ | ⟨c, t⟩
  · exact absurd hc h
  · have hpre : cleanupWhitespace y <+: (collapseWs y).dropWhile isJsWs :=
      List.rdropWhile_prefix _ _
    obtain ⟨s, hs⟩ := hpre
    rw [hc] at hs
    have hhn := dropWhile_head_not isJsWs (collapseWs y) c (t ++ s) hs.symm
    exact ⟨c, List.mem_cons_self c t, by simpa using hhn⟩

theorem extractTitle_shape (html : List Char) :
    extractTitle html = [] ∨ ∃ z, extractTitle html = cleanupWhitespace z := by
  unfold extractTitle
  cases findTagInner "<title".toList "</title>".toList html with
  | some inner => exact Or.inr ⟨decodeEntities (stripHtml inner), rfl⟩
  | none =>
    cases findTagInner "<h1".toList "</h1>".toList html with
    | some inner => exact Or.inr ⟨decodeEntities (stripHtml inner), rfl⟩
    | none => exact Or.inl rfl

/-- C6: the title is resolved from the `<title>` element first, else the
first `<h1>`, else the humanized slug fallback at the call site; and the
post title that results is never empty. -/
theorem title_resolution (html name : List Char) (m : List (List Char × Nat)) :
    (∀ inner, findTagInner "<title".toList "</title>".toList html = some inner →
      extractTitle html = cleanupWhitespace (decodeEntities (stripHtml inner))) ∧
    (findTagInner "<title".toList "</title>".toList html = none →
      ∀ inner, findTagInner "<h1".toList "</h1>".toList html = some inner →
        extractTitle html = cleanupWhitespace (decodeEntities (stripHtml inner))) ∧
    (findTagInner "<title".toList "</title>".toList html = none →
      findTagInner "<h1".toList "</h1>".toList html = none →
      extractTitle html = [] ∧
      postTitle html (ensureUniqueSlug (slugify (baseNameOf name)) m).1 =
        cleanupWhitespace (toTitleCase
          (((ensureUniqueSlug (slugify (baseNameOf name)) m).1).map
            (fun d => if d == '-' then ' ' else d)))) ∧
    postTitle html (ensureUniqueSlug (slugify (baseNameOf name)) m).1 ≠ [] := by
  refine ⟨?_, ?_, ?_, ?_⟩
  · intro inner hf
    unfold extractTitle
    rw [hf]
  · intro hn inner hf
    unfold extractTitle
    rw [hn, hf]
  · intro hn1 hn2
    have hempty : extractTitle html = [] := by
      unfold extractTitle
      rw [hn1, hn2]
    refine ⟨hempty, ?_⟩
    unfold postTitle
    rw [hempty]
    rfl
  · obtain ⟨c, t, hslug, hcal⟩ := slugify_head_alnum (baseNameOf name)
    obtain ⟨t2, hslug2⟩ := ensureUniqueSlug_head _ m c t hslug
    unfold postTitle
    by_cases hx : (extractTitle html).isEmpty
    · unfold jsOr
      rw [if_pos hx, hslug2]
      have hcne : ¬ (c == '-') = true := by
        intro h0
        have hc0 : c = '-' := by simpa using h0
        rw [hc0] at hcal
        exact absurd hcal (by decide)
      have hmap : (c :: t2).map (fun d => if d == '-' then ' ' else d) =
          c :: t2.map (fun d => if d == '-' then ' ' else d) := by
        simp only [List.map_cons, if_neg hcne]
      rw [hmap]
      unfold toTitleCase
      have hstep : toTitleCaseGo false (c :: t2.map (fun d => if d == '-' then ' ' else d)) =
          c.toUpper :: toTitleCaseGo true (t2.map (fun d => if d == '-' then ' ' else d)) := by
        conv_lhs => rw [toTitleCaseGo.eq_def]
        simp [isWordW_of_alnum hcal]
      rw [hstep]
      obtain ⟨hb1, hb2⟩ := toUpper_bounds hcal
      exact cleanup_ne_nil_of_mem (List.mem_cons_self _ _) (isJsWs_false_of_bounds hb1 hb2)
    · unfold jsOr
      rw [if_neg hx]
      rcases extractTitle_shape html with h0 | ⟨z, hz⟩
      · rw [h0] at hx
        simp at hx
      · rw [hz]
        have hne : cleanupWhitespace z ≠ [] := by
          rw [← hz]
          simp [List.isEmpty_iff] at hx
          exact hx
        obtain ⟨x, hxm, hxw⟩ := cleanup_has_nonws hne
        exact cleanup_ne_nil_of_mem hxm hxw

/-- Witness for C6 at a concrete draft for each branch of the resolution
order, and nonemptiness at a draft with no title source at all. -/
theorem title_resolution_witness :
    extractTitle "<title>T</title><h1>H</h1>".toList =
      cleanupWhitespace (decodeEntities (stripHtml "T".toList)) ∧
    extractTitle "<h1>H</h1>".toList =
      cleanupWhitespace (decodeEntities (stripHtml "H".toList)) ∧
    postTitle "<div>x</div>".toList
      (ensureUniqueSlug (slugify (baseNameOf "My Post.html".toList)) []).1 =
      cleanupWhitespace (toTitleCase
        (((ensureUniqueSlug (slugify (baseNameOf "My Post.html".toList)) []).1).map
          (fun d => if d == '-' then ' ' else d))) ∧
    postTitle "<div>x</div>".toList
      (ensureUniqueSlug (slugify (baseNameOf "My Post.html".toList)) []).1 ≠ [] :=
  ⟨(title_resolution "<title>T</title><h1>H</h1>".toList "a.html".toList []).1 _ (by rfl),
   (title_resolution "<h1>H</h1>".toList "a.html".toList []).2.1 (by rfl) _ (by rfl),
   ((title_resolution "<div>x</div>".toList "My Post.html".toList []).2.2.1 (by rfl) (by rfl)).2,
   (title_resolution "<div>x</div>".toList "My Post.html".toList []).2.2.2⟩

/-! ### C7: indentation of the generated lines -/

theorem blogLines_shape (posts : List Post) (indent : List Char) :
    ∀ line ∈ generateBlogLines posts indent,
      line = [] ∨ ∃ suf, line = indent ++ suf := by
  intro line hl
  unfold generateBlogLines at hl
  rcases List.mem_cons.1 hl with rfl | hl2
  · exact Or.inr ⟨_, rfl⟩
  · rcases List.mem_append.1 hl2 with hbody | hfoot
    · by_cases hpe : posts.isEmpty
      · rw [if_pos hpe] at hbody
        rcases List.mem_singleton.1 hbody with rfl
        exact Or.inr ⟨_, rfl⟩
      · rw [if_neg hpe] at hbody
        have hbody2 : line ∈ posts.flatMap (articleLines indent) :=
          (List.dropLast_sublist _).mem hbody
        obtain ⟨p, -, hline⟩ := List.mem_flatMap.1 hbody2
        unfold articleLines at hline
        simp only [List.mem_cons, List.mem_singleton] at hline
        rcases hline with rfl | rfl | rfl | rfl | rfl | hnil
        · exact Or.inr ⟨_, rfl⟩
        · exact Or.inr ⟨_, rfl⟩
        · exact Or.inr ⟨_, rfl⟩
        · exact Or.inr ⟨_, rfl⟩
        · exact Or.inr ⟨_, rfl⟩
        · rcases hnil with rfl | hf
          · exact Or.inl rfl
          · cases hf
    · rcases List.mem_singleton.1 hfoot with rfl
      exact Or.inr ⟨_, rfl⟩

theorem takeWhile_isPrefix_filter (p : Char → Bool) (l : List Char) :
    l.takeWhile p <+: l.filter p := by
  induction l with
  | nil => exact List.nil_prefix
  | cons c rest ih =>
    by_cases hc : p c
    · rw [List.takeWhile_cons_of_pos hc, List.filter_cons_of_pos hc]
      exact List.cons_prefix_cons.2 ⟨rfl, ih⟩
    · rw [List.takeWhile_cons_of_neg hc]
      exact List.nil_prefix

theorem leadingWs_isPrefix_indentOf (content : List Char) (s j : Nat)
    (hj : lastIdxOfChar '\n' (content.take (s + 1)) = some j) :
    ((content.take s).drop (j + 1)).takeWhile isJsWs <+: indentOf content s := by
  unfold indentOf
  rw [hj]
  unfold jsOr
  by_cases hf : (((content.take s).drop (j + 1)).filter isJsWs).isEmpty
  · rw [if_pos hf]
    have h0 : ((content.take s).drop (j + 1)).takeWhile isJsWs <+:
        ((content.take s).drop (j + 1)).filter isJsWs :=
      takeWhile_isPrefix_filter _ _
    have h1 : ((content.take s).drop (j + 1)).filter isJsWs = [] := by
      simpa [List.isEmpty_iff] using hf
    rw [h1] at h0
    rw [List.prefix_nil.1 h0]
    exact List.nil_prefix
  · rw [if_neg hf]
    exact takeWhile_isPrefix_filter _ _

/-- C7 (amended): when the start marker is preceded by a newline, every
nonempty generated line begins with the leading whitespace of the line on
which the start marker sits (the marker line prefix with its
non-whitespace discarded extends that leading run, or stands in whole when
it has no whitespace at all); the blank separator lines between article
blocks are empty and carry no indentation. -/
theorem generated_lines_indented (content : List Char) (posts : List Post)
    (s j : Nat)
    (_hs : firstIndexOf startMarker content = some s)
    (hj : lastIdxOfChar '\n' (content.take (s + 1)) = some j) :
    ∀ line ∈ generateBlogLines posts (indentOf content s),
      line = [] ∨ ((content.take s).drop (j + 1)).takeWhile isJsWs <+: line := by
  intro line hl
  rcases blogLines_shape posts (indentOf content s) line hl with h0 | ⟨suf, rfl⟩
  · exact Or.inl h0
  · exact Or.inr ((leadingWs_isPrefix_indentOf content s j hj).trans
      (List.prefix_append _ _))

/-- A pair of tiny concrete posts for the indentation counterexample. -/
def postA : Post :=
  { slug := "a".toList, title := "A".toList, excerpt := "".toList,
    href := "blog/a.html".toList }

/-- Second concrete post. -/
def postB : Post :=
  { slug := "b".toList, title := "B".toList, excerpt := "".toList,
    href := "blog/b.html".toList }

/-- An index document whose start marker sits on the (indented) first line,
with no preceding newline. -/
def markerFirstLineDoc : List Char :=
  "  <!-- BLOG:START --><!-- BLOG:END -->".toList

/-- Counterexample to C7 as stated: the document above has well-ordered
markers on a line whose leading whitespace is two spaces, yet the generated
lines do not all begin with that whitespace - the computed indent is empty
because no newline precedes the marker, and the blank separator line
between the two article blocks is empty in any case. -/
theorem generated_lines_indent_counterexample :
    firstIndexOf startMarker markerFirstLineDoc = some 2 ∧
    firstIndexOf endMarker markerFirstLineDoc = some 21 ∧
    markerFirstLineDoc.takeWhile isJsWs = "  ".toList ∧
    ¬ (∀ line ∈ generateBlogLines [postA, postB] (indentOf markerFirstLineDoc 2),
        "  ".toList <+: line) := by
  refine ⟨by decide, by decide, by decide, ?_⟩
  intro hall
  have h1 := hall [] (by decide)
  have h2 : ¬ ("  ".toList <+: ([] : List Char)) := by decide
  exact h2 h1

/-- A document whose marker line is `"  <!-- BLOG:START -->"` preceded by a
newline. -/
def markerSecondLineDoc : List Char :=
  "x\n  <!-- BLOG:START -->\n  <!-- BLOG:END -->".toList

/-- Witness for C7 (amended) at a concrete document, one post, and the
concrete header line of the generated markup. -/
theorem generated_lines_indented_witness :
    (indentOf markerSecondLineDoc 4 ++ "<div class=\"grid md:grid-cols-3 gap-10\">".toList) = [] ∨
    ((markerSecondLineDoc.take 4).drop (1 + 1)).takeWhile isJsWs <+:
      (indentOf markerSecondLineDoc 4 ++ "<div class=\"grid md:grid-cols-3 gap-10\">".toList) :=
  generated_lines_indented markerSecondLineDoc [postA] 4 1 (by decide) (by decide)
    (indentOf markerSecondLineDoc 4 ++ "<div class=\"grid md:grid-cols-3 gap-10\">".toList)
    (by decide)

/-! ### C1: slug uniqueness and collision suffixes -/

theorem natStrGo_digits (fuel : Nat) :
    ∀ n, n < fuel → ∀ c ∈ natStrGo fuel n, 48 ≤ c.toNat ∧ c.toNat ≤ 57 := by
  induction fuel with
  | zero => intro n hn; omega
  | succ fuel ih =>
    intro n hn c hc
    unfold natStrGo at hc
    by_cases h10 : n < 10
    · rw [if_pos h10] at hc
      rcases List.mem_singleton.1 hc with rfl
      unfold digitToChar
      rw [toNat_ofNat_valid (48 + n % 10) (by omega)]
      omega
    · rw [if_neg h10] at hc
      rcases List.mem_append.1 hc with hl | hr
      · exact ih (n / 10) (by omega) c hl
      · rcases List.mem_singleton.1 hr with rfl
        unfold digitToChar
        rw [toNat_ofNat_valid (48 + n % 10 % 10) (by omega)]
        omega

theorem natStr_no_hyphen (n : Nat) : '-' ∉ natStr n := by
  intro h
  have := natStrGo_digits (n + 1) n (by omega) '-' h
  simp at this

/-- Decimal value of a digit string. -/
def valOfDigits (l : List Char) : Nat :=
  l.foldl (fun acc c => 10 * acc + (c.toNat - 48)) 0

theorem foldl_digits_append (l : List Char) (c : Char) (a : Nat) :
    (l ++ [c]).foldl (fun acc c => 10 * acc + (c.toNat - 48)) a =
      10 * l.foldl (fun acc c => 10 * acc + (c.toNat - 48)) a + (c.toNat - 48) := by
  rw [List.foldl_append]
  rfl

theorem foldl_digits_shift (l : List Char) :
    ∀ a, l.foldl (fun acc c => 10 * acc + (c.toNat - 48)) a =
      a * 10 ^ l.length + valOfDigits l := by
  induction l with
  | nil => intro a; simp [valOfDigits]
  | cons c rest ih =>
    intro a
    unfold valOfDigits
    rw [List.foldl_cons, List.foldl_cons, ih, ih (10 * 0 + (c.toNat - 48))]
    simp [List.length_cons]
    ring

theorem valOfDigits_natStrGo (fuel : Nat) :
    ∀ n, n < fuel → valOfDigits (natStrGo fuel n) = n := by
  induction fuel with
  | zero => intro n hn; omega
  | succ fuel ih =>
    intro n hn
    unfold natStrGo
    by_cases h10 : n < 10
    · rw [if_pos h10]
      unfold valOfDigits digitToChar
      simp [List.foldl_cons]
      rw [toNat_ofNat_valid (48 + n % 10) (by omega)]
      omega
    · rw [if_neg h10]
      unfold valOfDigits
      rw [foldl_digits_append]
      have hv : (natStrGo fuel (n / 10)).foldl (fun acc c => 10 * acc + (c.toNat - 48)) 0 =
          n / 10 := ih (n / 10) (by omega)
      rw [hv]
      unfold digitToChar
      rw [toNat_ofNat_valid (48 + n % 10 % 10) (by omega)]
      omega

theorem natStr_inj {a b : Nat} (h : natStr a = natStr b) : a = b := by
  have hv := congrArg valOfDigits h
  unfold natStr at hv
  rw [valOfDigits_natStrGo (a + 1) a (by omega),
    valOfDigits_natStrGo (b + 1) b (by omega)] at hv
  exact hv

theorem hyphen_append_inj (x : List Char) :
    ∀ (y d1 d2 : List Char), '-' ∉ d1 → '-' ∉ d2 →
    x ++ '-' :: d1 = y ++ '-' :: d2 → x = y ∧ d1 = d2 := by
  induction x with
  | nil =>
    intro y d1 d2 h1 h2 he
    cases y with
    | nil =>
      simp at he
      exact ⟨rfl, he⟩
    | cons c y2 =>
      exfalso
      rw [List.nil_append] at he
      obtain ⟨hc, hd⟩ := List.cons_eq_cons.1 he
      apply h1
      rw [hd]
      exact List.mem_append_right _ (List.mem_cons_self _ _)
  | cons a x2 ih =>
    intro y d1 d2 h1 h2 he
    cases y with
    | nil =>
      exfalso
      rw [List.nil_append] at he
      obtain ⟨hc, hd⟩ := List.cons_eq_cons.1 he
      apply h2
      rw [← hd]
      exact List.mem_append_right _ (List.mem_cons_self _ _)
    | cons c y2 =>
      rw [List.cons_append, List.cons_append] at he
      obtain ⟨hc, hd⟩ := List.cons_eq_cons.1 he
      obtain ⟨hxy, hdd⟩ := ih y2 d1 d2 h1 h2 hd
      exact ⟨by rw [hc, hxy], hdd⟩

theorem mapGet_set_self (m : List (List Char × Nat)) (k : List Char) (v : Nat) :
    mapGet (mapSet m k v) k = some v := by
  induction m with
  | nil => simp [mapSet, mapGet]
  | cons e r ih =>
    obtain ⟨k2, v2⟩ := e
    unfold mapSet
    by_cases hk : k2 = k
    · rw [if_pos hk]
      simp [mapGet]
    · rw [if_neg hk]
      unfold mapGet
      rw [if_neg hk]
      exact ih

theorem mapGet_set_ne (m : List (List Char × Nat)) (k k2 : List Char) (v : Nat)
    (h : k2 ≠ k) : mapGet (mapSet m k v) k2 = mapGet m k2 := by
  induction m with
  | nil =>
    unfold mapSet mapGet
    rw [if_neg (fun h0 => h h0.symm)]
    rfl
  | cons e r ih =>
    obtain ⟨k3, v3⟩ := e
    unfold mapSet
    by_cases hk : k3 = k
    · rw [if_pos hk]
      unfold mapGet
      rw [if_neg (fun h0 => h h0.symm), if_neg (by rw [hk]; exact fun h0 => h h0.symm)]
    · rw [if_neg hk]
      unfold mapGet
      by_cases hk2 : k3 = k2
      · rw [if_pos hk2, if_pos hk2]
      · rw [if_neg hk2, if_neg hk2]
        exact ih

theorem count_append_singleton_self (P : List (List Char)) (b : List Char) :
    (P ++ [b]).count b = P.count b + 1 := by
  simp [List.count_append]

theorem count_append_singleton_ne (P : List (List Char)) (b x : List Char)
    (h : x ≠ b) : (P ++ [b]).count x = P.count x := by
  rw [List.count_append, List.count_cons]
  simp [h.symm]

theorem slugsLoop_eq_spec :
    ∀ (bs : List (List Char)) (m : List (List Char × Nat)) (pre : List (List Char)),
    (∀ b, mapGet m b = if pre.count b = 0 then none else some (pre.count b)) →
    slugsLoop m bs = slugsSpec pre bs := by
  intro bs
  induction bs with
  | nil => intro m pre hinv; rfl
  | cons b rest ih =>
    intro m pre hinv
    unfold slugsLoop slugsSpec ensureUniqueSlug
    have hmb := hinv b
    by_cases hc : pre.count b = 0
    · rw [if_pos hc] at hmb
      rw [hmb, if_pos hc]
      simp only [List.cons.injEq, true_and]
      apply ih
      intro x
      by_cases hx : x = b
      · subst hx
        rw [mapGet_set_self, count_append_singleton_self, hc]
        simp
      · rw [mapGet_set_ne _ _ _ _ hx, count_append_singleton_ne _ _ _ hx]
        exact hinv x
    · rw [if_neg hc] at hmb
      rw [hmb, if_neg hc]
      simp only [List.cons.injEq, true_and]
      apply ih
      intro x
      by_cases hx : x = b
      · subst hx
        rw [mapGet_set_self, count_append_singleton_self]
        simp
      · rw [mapGet_set_ne _ _ _ _ hx, count_append_singleton_ne _ _ _ hx]
        exact hinv x

theorem mem_slugsSpec :
    ∀ (bs P : List (List Char)) (y : List Char), y ∈ slugsSpec P bs →
    ∃ c k, c ∈ bs ∧ P.count c ≤ k ∧
      ((k = 0 ∧ y = c) ∨ (1 ≤ k ∧ y = c ++ '-' :: natStr k)) := by
  intro bs
  induction bs with
  | nil => intro P y hy; cases hy
  | cons b rest ih =>
    intro P y hy
    unfold slugsSpec at hy
    rcases List.mem_cons.1 hy with rfl | hm
    · by_cases hc : P.count b = 0
      · exact ⟨b, 0, List.mem_cons_self b rest, by omega,
          Or.inl ⟨rfl, by rw [if_pos hc]⟩⟩
      · exact ⟨b, P.count b, List.mem_cons_self b rest, le_refl _,
          Or.inr ⟨by omega, by rw [if_neg hc]⟩⟩
    · obtain ⟨c, k, hcm, hck, hy2⟩ := ih (P ++ [b]) y hm
      refine ⟨c, k, List.mem_cons_of_mem b hcm, ?_, hy2⟩
      calc P.count c ≤ (P ++ [b]).count c := by
            rw [List.count_append]; omega
        _ ≤ k := hck

theorem slugsSpec_pairwise :
    ∀ (bs P : List (List Char)),
    (∀ b1 ∈ P ++ bs, ∀ b2 ∈ P ++ bs, ∀ k : Nat, b1 ≠ b2 ++ '-' :: natStr (k + 1)) →
    List.Pairwise (· ≠ ·) (slugsSpec P bs) := by
  intro bs
  induction bs with
  | nil => intro P hyp; exact List.Pairwise.nil
  | cons b rest ih =>
    intro P hyp
    have hyp2 : ∀ b1 ∈ (P ++ [b]) ++ rest, ∀ b2 ∈ (P ++ [b]) ++ rest, ∀ k : Nat,
        b1 ≠ b2 ++ '-' :: natStr (k + 1) := by
      rw [List.append_assoc]
      exact hyp
    have hbmem : b ∈ P ++ b :: rest :=
      List.mem_append_right _ (List.mem_cons_self b rest)
    unfold slugsSpec
    refine List.Pairwise.cons ?_ (ih (P ++ [b]) hyp2)
    intro y hy
    obtain ⟨c, k, hcm, hck, hy2⟩ := mem_slugsSpec rest (P ++ [b]) y hy
    have hcmem : c ∈ P ++ b :: rest :=
      List.mem_append_right _ (List.mem_cons_of_mem b hcm)
    by_cases hPb : P.count b = 0
    · rw [if_pos hPb]
      rcases hy2 with ⟨hk0, hyc⟩ | ⟨hk1, hyc⟩
      · subst hyc
        intro heq
        rw [← heq] at hck
        rw [count_append_singleton_self] at hck
        omega
      · subst hyc
        intro heq
        have hk3 : k - 1 + 1 = k := by omega
        exact hyp b hbmem c hcmem (k - 1) (by rw [hk3]; exact heq)
    · rw [if_neg hPb]
      rcases hy2 with ⟨hk0, hyc⟩ | ⟨hk1, hyc⟩
      · subst hyc
        intro heq
        have hm3 : P.count b - 1 + 1 = P.count b := by omega
        exact hyp y hcmem b hbmem (P.count b - 1) (by rw [hm3]; exact heq.symm)
      · subst hyc
        intro heq
        obtain ⟨hbc, hdd⟩ := hyphen_append_inj b c _ _
          (natStr_no_hyphen (P.count b)) (natStr_no_hyphen k) heq
        subst hbc
        have hk4 : P.count b + 1 ≤ k := by
          have h3 := hck
          rw [count_append_singleton_self] at h3
          omega
        have h5 := natStr_inj hdd
        omega

theorem processLoop_slugs :
    ∀ (ds : List (List Char × List Char)) (m : List (List Char × Nat)),
    (processLoop m ds).1.map Post.slug =
      slugsLoop m (ds.map (fun d => slugify (baseNameOf d.1))) := by
  intro ds
  induction ds with
  | nil => intro m; rfl
  | cons d rest ih =>
    intro m
    obtain ⟨name, html⟩ := d
    simp only [processLoop, processDraft, slugsLoop, List.map_cons, List.cons.injEq]
    exact ⟨trivial, ih _⟩

theorem filterMap_names :
    ∀ (ds : List (List Char × List Char)),
    (draftFilter ds).map (fun d => slugify (baseNameOf d.1)) =
      baseSlugsOf (ds.map Prod.fst) := by
  intro ds
  induction ds with
  | nil => rfl
  | cons d rest ih =>
    unfold draftFilter baseSlugsOf at *
    simp only [List.map_cons]
    by_cases hf : endsWithHtmlCI d.1
    · rw [List.filter_cons_of_pos (by simpa using hf), List.filter_cons_of_pos hf]
      simp only [List.map_cons, List.cons.injEq]
      exact ⟨trivial, ih⟩
    · rw [List.filter_cons_of_neg (by simpa using hf), List.filter_cons_of_neg hf]
      exact ih

/-- C1 (amended): the slug sequence refines the spec description - the
first occurrence of a base slug stays bare and the n-th collision receives
the suffix `-n` in first-seen order; the slugs are pairwise distinct
whenever no base slug is itself equal to another base slug extended with a
`-k` suffix; and the slugs of the posts built by the scan loop are exactly
this sequence. -/
theorem slug_assignment (names : List (List Char)) :
    slugsOfNames names = slugsSpec [] (baseSlugsOf names) ∧
    ((∀ b1 ∈ baseSlugsOf names, ∀ b2 ∈ baseSlugsOf names, ∀ k : Nat,
        b1 ≠ b2 ++ '-' :: natStr (k + 1)) →
      List.Pairwise (· ≠ ·) (slugsOfNames names)) ∧
    (∀ drafts : List (List Char × List Char), drafts.map Prod.fst = names →
      (processLoop [] (draftFilter drafts)).1.map Post.slug = slugsOfNames names) := by
  have heq : slugsOfNames names = slugsSpec [] (baseSlugsOf names) :=
    slugsLoop_eq_spec _ [] [] (fun b => by simp [mapGet])
  refine ⟨heq, ?_, ?_⟩
  · intro hyp
    rw [heq]
    apply slugsSpec_pairwise
    simpa using hyp
  · intro drafts hd
    rw [processLoop_slugs, filterMap_names, hd]
    rfl

/-- Counterexample to C1 as stated: the filenames `a.html`, `A.html`,
`a-1.html` yield the slugs `a`, `a-1`, `a-1` - not pairwise distinct,
because the third base slug collides with the suffixed form of the first. -/
theorem slug_duplicate_counterexample :
    slugsOfNames ["a.html".toList, "A.html".toList, "a-1.html".toList] =
      ["a".toList, "a-1".toList, "a-1".toList] ∧
    ¬ List.Pairwise (· ≠ ·)
      (slugsOfNames ["a.html".toList, "A.html".toList, "a-1.html".toList]) := by
  refine ⟨by decide, ?_⟩
  intro h
  have h2 : List.Pairwise (· ≠ ·) (["a".toList, "a-1".toList, "a-1".toList] :
      List (List Char)) := by
    have he : slugsOfNames ["a.html".toList, "A.html".toList, "a-1.html".toList] =
        ["a".toList, "a-1".toList, "a-1".toList] := by decide
    rw [he] at h
    exact h
  rcases h2 with - | ⟨hne, h3⟩
  rcases h3 with - | ⟨hne2, -⟩
  exact hne2 _ (List.mem_singleton.2 rfl) rfl

/-- Witness for C1 (amended) at two colliding drafts `b.html`, `B.html`. -/
theorem slug_assignment_witness :
    List.Pairwise (· ≠ ·) (slugsOfNames ["b.html".toList, "B.html".toList]) ∧
    (processLoop [] (draftFilter
      [("b.html".toList, "x".toList), ("B.html".toList, "y".toList)])).1.map Post.slug =
      slugsOfNames ["b.html".toList, "B.html".toList] := by
  constructor
  · apply (slug_assignment ["b.html".toList, "B.html".toList]).2.1
    intro b1 h1 b2 h2 k heq
    have hbase : baseSlugsOf ["b.html".toList, "B.html".toList] =
        ["b".toList, "b".toList] := by decide
    rw [hbase] at h1 h2
    have hb1 : b1 = "b".toList := by
      rcases List.mem_cons.1 h1 with rfl | h1b
      · rfl
      · exact List.mem_singleton.1 h1b
    have hb2 : b2 = "b".toList := by
      rcases List.mem_cons.1 h2 with rfl | h2b
      · rfl
      · exact List.mem_singleton.1 h2b
    rw [hb1, hb2] at heq
    have hlen := congrArg List.length heq
    simp [List.length_append] at hlen
  · exact (slug_assignment ["b.html".toList, "B.html".toList]).2.2 _ rfl
